import Mathlib

/-!
# A verification development for the CppON library (CppON.cpp / CppON.hpp)

This file gives a shallow embedding, in Lean 4, of the parts of the CppON
C++ library (a JSON / "tnetstring" tree-value library) that the specification
claims talk about, together with theorems settling those claims.

Modelling conventions, used throughout:

* C strings (`const char *`, `std::string`) are modelled as `List Char`
  (abbreviated `Str` below).  Pointer advancement is modelled by returning
  the remaining suffix of the list.
* Machine integers are modelled as `Nat` / `Int` with explicit `% 2^w`
  (`Int.emod`) where the C code wraps, and explicit reinterpretation
  functions (`toSignedW`) where the C code reads a bit pattern through a
  signed pointer cast.
* C `double`s are modelled as exact rationals (`ℚ`).  Every theorem below
  that evaluates a double computation does so at inputs where the rational
  result and the IEEE-754 binary64 result coincide exactly (this is argued
  in the accompanying doc comments).
* Fallible C functions that return `NULL` are modelled with `Option`.
* The hierarchy `CppON` / `COBoolean` / `COInteger` / `CODouble` /
  `COString` / `CONull` / `COMap` / `COArray` is modelled by the single
  inductive `Value`: the C type tag (`CppONType`) is the constructor.
  A `COMap` carries both its `std::map` payload (modelled as an association
  list `List (Str × Value)`; the claims below never depend on the internal
  sorted iteration order of `std::map`, every order-sensitive operation
  in the source iterates the separate `order` vector) and its insertion
  `order` vector (`List Str`).  A `COInteger` carries its byte width `siz`
  (1, 2, 4 or 8), its `unSigned` flag and its stored value interpreted at
  that width/signedness; a `CODouble` carries its `precision` field
  (a C `char`; `-1` means unset, the `CODouble(double)` constructor sets
  `10`) and its value.
-/

set_option linter.unusedVariables false

abbrev Str := List Char

/-- The whitespace set of the parser helpers `DumpWhiteSpace` in CppON.cpp
(lines 695-698).  Note that the source tests `'r' == ch` — the literal
letter `r`, not `'\r'` — and we reproduce that faithfully. -/
def isWsObj (c : Char) : Bool :=
  c = ' ' || c = '\t' || c = '\n' || c = 'r'

/-- The whitespace set of `CppON::parseJson` (line 1059) and of the
`GetTNetstring` post-length scan (line 731): here the source does use
`'\r'`. -/
def isWsStd (c : Char) : Bool :=
  c = ' ' || c = '\t' || c = '\n' || c = '\r'

/-- The whitespace set of C `isspace` in the "C" locale, used by `strtol`,
`strtoll` and `strtod`. -/
def isWsC (c : Char) : Bool :=
  c = ' ' || c = '\t' || c = '\n' || c = '\r' || c = '\x0b' || c = '\x0c'

def isDigit (c : Char) : Bool := '0' ≤ c && c ≤ '9'

def digitVal (c : Char) : Nat := c.toNat - '0'.toNat

def isHexDigit (c : Char) : Bool :=
  isDigit c || ('a' ≤ c && c ≤ 'f') || ('A' ≤ c && c ≤ 'F')

def hexVal (c : Char) : Nat :=
  if isDigit c then digitVal c
  else if 'a' ≤ c && c ≤ 'f' then c.toNat - 'a'.toNat + 10
  else c.toNat - 'A'.toNat + 10

/-- Decimal digits of a `Nat`, little helper for `natDec` (fuel-structural
so that the kernel can evaluate it). -/
def natDecAux (fuel : Nat) (n : Nat) (acc : Str) : Str :=
  match fuel with
  | 0 => acc
  | fuel + 1 =>
    let d := Char.ofNat ('0'.toNat + n % 10)
    if n < 10 then d :: acc else natDecAux fuel (n / 10) (d :: acc)

/-- Decimal rendering of a `Nat`, as `printf("%u", …)` renders it. -/
def natDec (n : Nat) : Str := natDecAux (n + 1) n []

/-- Decimal rendering of an `Int`, as `printf("%d" / "%ld", …)` renders a
signed integer. -/
def intDec (i : Int) : Str :=
  if i < 0 then '-' :: natDec i.natAbs else natDec i.natAbs

/-- Reinterpret the low `w`-bit pattern of an integer as a signed `w`-bit
value (the effect of reading the data through a signed pointer cast of
width `w` bits). -/
def toSignedW (w : Nat) (i : Int) : Int :=
  let p := i.emod (2 ^ w)
  if p < 2 ^ (w - 1) then p else p - 2 ^ w

/-- The unsigned `w`-bit pattern of an integer value. -/
def patW (w : Nat) (i : Int) : Int := i.emod (2 ^ w)

/-! ## The value model

`Value` is the closed sum modelling the `CppON` class hierarchy. -/

inductive Value where
  /-- `CONull` -/
  | vnull : Value
  /-- `COBoolean`, payload `*(bool*)data` -/
  | vbool (b : Bool) : Value
  /-- `COInteger`: byte width `siz` ∈ {1,2,4,8}, `unSigned` flag, and the
  stored value as interpreted at that width and signedness (so for an
  unsigned node `0 ≤ val < 2^(8*siz)`, for a signed node
  `-2^(8*siz-1) ≤ val < 2^(8*siz-1)` in every reachable state). -/
  | vint (siz : Nat) (unSigned : Bool) (val : Int) : Value
  /-- `CODouble`: the `precision` field (C `char`; `-1` = unset) and the
  stored double, modelled as an exact rational. -/
  | vdbl (prec : Int) (val : ℚ) : Value
  /-- `COString`, payload `*(std::string*)data` -/
  | vstr (s : Str) : Value
  /-- `COMap`: the `std::map<std::string,CppON*>` payload as an association
  list, plus the `order` vector recording insertion order. -/
  | vmap (entries : List (Str × Value)) (order : List Str) : Value
  /-- `COArray`, payload `*(std::vector<CppON*>*)data` -/
  | varr (elems : List Value) : Value

open Value

/-- The `CppONType` tag of a node (`CppON::type()`); numbered as in the
`CppONType` enum of CppON.hpp. -/
def vtag : Value → Nat
  | vint _ _ _ => 1
  | vdbl _ _ => 2
  | vstr _ => 3
  | vnull => 4
  | vbool _ => 5
  | vmap _ _ => 6
  | varr _ => 7

/-- `CppON::isMap` -/
def isMapV : Value → Bool | vmap _ _ => true | _ => false

/-- `CppON::isArray` -/
def isArrayV : Value → Bool | varr _ => true | _ => false

/-- `CppON::isString` -/
def isStringV : Value → Bool | vstr _ => true | _ => false

/-- `CppON::isObj` (CppON.hpp line 314): the tag lies between
`INTEGER_CPPON_OBJ_TYPE` (1) and `ARRAY_CPPON_OBJ_TYPE` (7).  Every
constructor of `Value` satisfies this (the model has no
`UNKNOWN_CPPON_OBJ_TYPE` nodes). -/
def isObjV : Value → Bool := fun v => 1 ≤ vtag v && vtag v ≤ 7

/-! ## Association-list primitives for the `std::map` payload -/

/-- The linear key scan used by `COMap::findElement` (CppON.cpp
lines 3329-3338), `COMap::findNoSplit`, `COMap::operator==`: the first
entry whose key compares `strcmp`-equal. -/
def scanEq (es : List (Str × Value)) (k : Str) : Option Value :=
  match es with
  | [] => none
  | (k', v) :: rest => if k' = k then some v else scanEq rest k

/-- Remove the entry with the given key (the `m->erase(it)` after a
successful `m->find`): no-op when the key is absent. -/
def eraseKey (es : List (Str × Value)) (k : Str) : List (Str × Value) :=
  match es with
  | [] => []
  | (k', v) :: rest => if k' = k then rest else (k', v) :: eraseKey rest k

/-- Replace, in place, the value stored under a key (modelling the C++
in-place mutation of the child object found under that key). -/
def setKey (es : List (Str × Value)) (k : Str) (x : Value) : List (Str × Value) :=
  match es with
  | [] => []
  | (k', v) :: rest => if k' = k then (k', x) :: rest else (k', v) :: setKey rest k x

/-- Erase the first occurrence of a key from the `order` vector (the
`std::find` + `order.erase` idiom of `COMap::append` / `COMap::removeVal`). -/
def eraseFirst (ord : List Str) (k : Str) : List Str :=
  match ord with
  | [] => []
  | k' :: rest => if k' = k then rest else k' :: eraseFirst rest k

/-! ## `COArray::at` (CppON.hpp lines 664-671) -/

/-- `COArray::at( unsigned int i )`: returns `NULL` when the backing
vector pointer is `NULL` or the size is `≤ i`, and the `i`-th element
otherwise.  The possibly-`NULL` `data` pointer is the `Option` on the
first argument. -/
def COArray.at (data : Option (List Value)) (i : Nat) : Option Value :=
  match data with
  | none => none
  | some v => if v.length ≤ i then none else v.get? i

/-- `at` as invoked from `COMap::findElement` with its `int arrayIndex`:
the `int` is converted to `unsigned int`, so any negative index becomes a
value `≥ 2^31 >` any realistic vector size and yields `NULL`. -/
def COArray.atI (xs : List Value) (i : Int) : Option Value :=
  if i < 0 then none else COArray.at (some xs) i.toNat

/-! ## Path splitting and C number-scanning primitives -/

/-- `splitPath` (CppON.cpp lines 3259-3272): everything before the first
`/` and the remainder after it (the remainder is empty when there is no
slash). -/
def splitPath (p : Str) : Str × Str :=
  match p with
  | [] => ([], [])
  | c :: rest =>
    if c = '/' then ([], rest)
    else
      let (v, r) := splitPath rest
      (c :: v, r)

/-- `s.find(':')` of `COMap::findElement`: `some (before, after)` at the
first colon, `none` if there is no colon. -/
def splitColon (s : Str) : Option (Str × Str) :=
  match s with
  | [] => none
  | c :: rest =>
    if c = ':' then some ([], rest)
    else (splitColon rest).map (fun pr => (c :: pr.1, pr.2))

/-- `key.find('/')` of `COMap::append`: `some (before, after)` at the
first slash. -/
def splitSlash (k : Str) : Option (Str × Str) :=
  match k with
  | [] => none
  | c :: rest =>
    if c = '/' then some ([], rest)
    else (splitSlash rest).map (fun pr => (c :: pr.1, pr.2))

/-- Accumulate a run of decimal digits (the digit loop inside `strtol`). -/
def digitsLoop (s : Str) (acc : Nat) : Nat × Str :=
  match s with
  | [] => (acc, [])
  | c :: rest => if isDigit c then digitsLoop rest (acc * 10 + digitVal c) else (acc, c :: rest)

/-- Accumulate a run of hexadecimal digits. -/
def hexLoop (s : Str) (acc : Nat) : Nat × Str :=
  match s with
  | [] => (acc, [])
  | c :: rest => if isHexDigit c then hexLoop rest (acc * 16 + hexVal c) else (acc, c :: rest)

/-- Accumulate a run of octal digits. -/
def octLoop (s : Str) (acc : Nat) : Nat × Str :=
  match s with
  | [] => (acc, [])
  | c :: rest =>
    if '0' ≤ c && c ≤ '7' then octLoop rest (acc * 8 + digitVal c) else (acc, c :: rest)

/-- Model of C `strtol(s, &end, 10)` (also `strtoll` base 10): skip
`isspace` characters, optional sign, then decimal digits; returns the
value and the rest of the string after the digits.  When no digits follow,
the value is `0` and the end pointer is reset to the original string.
(`LONG_MAX` clamping on overflow is not modelled; every use in this file
is far below that range.) -/
def strtolDec (s : Str) : Int × Str :=
  let t := s.dropWhile (fun c => isWsC c)
  let (neg, t2) :=
    match t with
    | '-' :: r => (true, r)
    | '+' :: r => (false, r)
    | _ => (false, t)
  match t2 with
  | c :: _ =>
    if isDigit c then
      let (n, rest) := digitsLoop t2 0
      ((if neg then -(n : Int) else (n : Int)), rest)
    else ((0 : Int), s)
  | [] => ((0 : Int), s)

/-- Model of C `strtol(s, &end, 16)`: like `strtolDec` but hexadecimal,
with an optional `0x`/`0X` prefix. -/
def strtolHex (s : Str) : Int × Str :=
  let t := s.dropWhile (fun c => isWsC c)
  let (neg, t2) :=
    match t with
    | '-' :: r => (true, r)
    | '+' :: r => (false, r)
    | _ => (false, t)
  let t3 :=
    match t2 with
    | '0' :: x :: r => if (x = 'x' || x = 'X') && (match r with | c :: _ => isHexDigit c | [] => false) then r else t2
    | _ => t2
  match t3 with
  | c :: _ =>
    if isHexDigit c then
      let (n, rest) := hexLoop t3 0
      ((if neg then -(n : Int) else (n : Int)), rest)
    else ((0 : Int), s)
  | [] => ((0 : Int), s)

/-- Model of C `strtoll(s, NULL, 0)` (base auto-detection, as used by the
net-string integer case, line 744): `0x` prefix means hexadecimal, a
leading `0` means octal, otherwise decimal. -/
def strtollB0 (s : Str) : Int :=
  let t := s.dropWhile (fun c => isWsC c)
  let (neg, t2) :=
    match t with
    | '-' :: r => (true, r)
    | '+' :: r => (false, r)
    | _ => (false, t)
  let n : Nat :=
    match t2 with
    | '0' :: x :: r =>
      if (x = 'x' || x = 'X') && (match r with | c :: _ => isHexDigit c | [] => false) then (hexLoop r 0).1
      else (octLoop (x :: r) 0).1
    | _ => (digitsLoop t2 0).1
  if neg then -(n : Int) else (n : Int)

/-- Model of C `strtod(s, &end)` for plain fixed-point decimals: skip
whitespace, optional sign, digits, optionally `.` and more digits.
(Exponent notation, hex floats and `inf`/`nan` are not modelled; no input
evaluated by a theorem in this file uses them.  The value is exact as a
rational; the accompanying doc comments argue agreement with binary64 at
every input a theorem evaluates.) -/
def strtodQ (s : Str) : ℚ × Str :=
  let t := s.dropWhile (fun c => isWsC c)
  let (neg, t2) :=
    match t with
    | '-' :: r => (true, r)
    | '+' :: r => (false, r)
    | _ => (false, t)
  let hasDigit :=
    match t2 with
    | c :: _ => isDigit c
    | [] => false
  if hasDigit then
    let (ip, rest) := digitsLoop t2 0
    let (q, rest2) :=
      match rest with
      | '.' :: fr =>
        let (fp, rest2) := digitsLoop fr 0
        let fdigits := (fr.length - rest2.length)
        (((ip : ℚ) + (fp : ℚ) / (10 : ℚ) ^ fdigits), rest2)
      | _ => ((ip : ℚ), rest)
    ((if neg then -q else q), rest2)
  else ((0 : ℚ), s)

/-! ## `COMap::findElement` (CppON.cpp lines 3299-3366)

The source recurses into nested maps on the path remainder and walks
chained `:<N>` array indices in a `while` loop.  Termination is by a
combined measure on the remaining path; we make the recursion structural
on an explicit fuel argument (the wrapper `COMap.findElement` supplies
`2 * path.length + 2`, which the comments on the measure show is always
sufficient: every recursive call strictly decreases
`2*path.length` resp. `2*(more.length + rest.length) + 1`). -/

mutual

/-- One call of `COMap::findElement` with explicit fuel.  `es` is the map
payload; the `order` vector is irrelevant to lookup. -/
def findElementF (fuel : Nat) (es : List (Str × Value)) (path : Str) : Option Value :=
  match fuel with
  | 0 => none
  | fuel + 1 =>
    let sp := splitPath path
    let rest := sp.2
    match splitColon sp.1 with
    | none =>
      match scanEq es sp.1 with
      | none => none
      | some rtn =>
        match rtn with
        | vmap es2 _ => if rest ≠ [] then findElementF fuel es2 rest else some rtn
        | _ => some rtn
        -- with no colon, `arrayIndex` stays `-1`, so the array branch is dead
    | some pr =>
      let st := strtolDec pr.2
      let s := pr.1
      let arrayIndex := st.1
      let more := st.2
      match scanEq es s with
      | none => none
      | some rtn =>
        match rtn with
        | vmap es2 _ => if rest ≠ [] then findElementF fuel es2 rest else some rtn
        | varr xs =>
          if 0 ≤ arrayIndex then chainLoopF fuel xs arrayIndex more rest else some rtn
        | _ => some rtn

/-- The `while( CppON::isArray( rtn ) && 0 <= arrayIndex )` loop of
`findElement` (lines 3345-3362), entered with the loop guard known to
hold. -/
def chainLoopF (fuel : Nat) (xs : List Value) (idx : Int) (more rest : Str) : Option Value :=
  match fuel with
  | 0 => none
  | fuel + 1 =>
    match COArray.atI xs idx with
    | none => none
    | some r =>
      match r with
      | vmap es2 _ =>
        if rest ≠ [] then findElementF fuel es2 rest else some r
      | varr ys =>
        match more with
        | ':' :: mrest =>
          let st := strtolDec mrest
          if st.1 < 0 then some (varr ys) else chainLoopF fuel ys st.1 st.2 rest
        | _ => some r
      | _ => some r

end

/-- `COMap::findElement`, with sufficient fuel for its path (see
`findElementF`). -/
def COMap.findElement (es : List (Str × Value)) (path : Str) : Option Value :=
  findElementF (2 * path.length + 2) es path

/-! ## `COMap::append` (CppON.cpp lines 4266-4306) and `COMap::removeVal`
(lines 2811-2828) -/

/-- `COMap::append( std::string key, CppON *n )`, on a map with payload
`es` and order vector `ord`.  Returns the updated payload, the updated
order vector and the `int` return code of the source.

Model notes, in correspondence with the source:
* no slash in the key: an existing entry of the same key is deleted from
  both the `std::map` and the `order` vector, then the pair is inserted
  and the key pushed at the end of `order` (return code 0);
* slash: the head segment `s` is looked up with `findElement`;
  - not found: `append( s, new COMap() )` inserts an empty map under the
    *literal* key `s` at the end, and the call recurses into that fresh
    (empty) child, whose in-place mutation we model by writing the
    recursion's result back under `s`;
  - found a map or an array: when `s` contains no `:`, `findElement s`
    is exactly the direct linear key scan (lemma
    `findElement_plain_key` below), so the in-place mutation of the
    found child is a `setKey` at `s`; a map recurses with the remainder
    key, an array appends `n` directly (discarding the remainder);
    when `s` does contain a `:`, the source mutates, in place, a node
    reached *through* an array subscript — an aliased deep update that a
    tree-valued model cannot express, so the model returns `none`
    ("undefined in this model").  No theorem below evaluates `append` on
    such a key.
  - found anything else: nothing is inserted and the code is `-1`.

The recursion is structural on fuel; the remainder key is strictly
shorter, so `key.length + 1` (supplied by the wrapper `COMap.append`)
always suffices. -/
def COMap.appendF (fuel : Nat) (es : List (Str × Value)) (ord : List Str) (key : Str)
    (n : Value) : Option (List (Str × Value) × List Str × Int) :=
  match fuel with
  | 0 => none
  | fuel + 1 =>
    match splitSlash key with
    | none =>
      some (eraseKey es key ++ [(key, n)], eraseFirst ord key ++ [key], 0)
    | some pr =>
      let s := pr.1
      let rest := pr.2
      match COMap.findElement es s with
      | none =>
        match COMap.appendF fuel [] [] rest n with
        | some r => some (es ++ [(s, vmap r.1 r.2.1)], ord ++ [s], r.2.2)
        | none => none
      | some (vmap es2 ord2) =>
        if s.contains ':' then none
        else
          match COMap.appendF fuel es2 ord2 rest n with
          | some r => some (setKey es s (vmap r.1 r.2.1), ord, r.2.2)
          | none => none
      | some (varr xs) =>
        if s.contains ':' then none
        else some (setKey es s (varr (xs ++ [n])), ord, 0)
      | some _ => some (es, ord, -1)

/-- `COMap::append` with sufficient fuel. -/
def COMap.append (es : List (Str × Value)) (ord : List Str) (key : Str) (n : Value) :
    Option (List (Str × Value) × List Str × Int) :=
  COMap.appendF (key.length + 1) es ord key n

/-- `COMap::removeVal( std::string s )`: when `m->find` succeeds the entry
is erased from the `std::map` and the first matching key is erased from
the `order` vector; otherwise nothing happens. -/
def COMap.removeVal (es : List (Str × Value)) (ord : List Str) (k : Str) :
    List (Str × Value) × List Str :=
  match scanEq es k with
  | none => (es, ord)
  | some _ => (eraseKey es k, eraseFirst ord k)

/-! ## Size bounds on lookup results

`findElement` returns a node *inside* the searched payload, so its result
is `sizeOf`-smaller than the payload.  These bounds justify the
well-founded recursion of `==` and `diff` below, which recurse on values
obtained through `findElement`. -/

theorem sizeOf_scanEq (es : List (Str × Value)) (k : Str) (v : Value)
    (h : scanEq es k = some v) : sizeOf v < sizeOf es := by
  induction es with
  | nil => simp [scanEq] at h
  | cons e rest ih =>
    obtain ⟨k', v'⟩ := e
    simp only [scanEq] at h
    split at h
    · cases h
      simp
      omega
    · have := ih h
      simp
      omega

theorem sizeOf_atI (xs : List Value) (i : Int) (v : Value)
    (h : COArray.atI xs i = some v) : sizeOf v < sizeOf xs := by
  simp only [COArray.atI, COArray.at] at h
  split at h
  · cases h
  · split at h
    · cases h
    · exact List.sizeOf_lt_of_mem (List.get?_mem h)

theorem sizeOf_findElementF (fuel : Nat) :
    (∀ es p t, findElementF fuel es p = some t → sizeOf t < sizeOf es) ∧
    (∀ xs i m r t, chainLoopF fuel xs i m r = some t → sizeOf t < sizeOf xs) := by
  induction fuel with
  | zero =>
    constructor
    · intro es p t h
      rw [findElementF] at h
      cases h
    · intro xs i m r t h
      rw [chainLoopF] at h
      cases h
  | succ fuel ih =>
    constructor
    · intro es p t h
      rw [findElementF] at h
      simp only at h
      split at h
      · split at h
        · cases h
        · rename_i rtn hscan
          have hlt := sizeOf_scanEq _ _ _ hscan
          split at h
          · split at h
            · rename_i es2 o2 _
              have := ih.1 _ _ _ h
              simp at hlt
              omega
            · cases h; exact hlt
          · cases h; exact hlt
      · split at h
        · cases h
        · rename_i rtn hscan
          have hlt := sizeOf_scanEq _ _ _ hscan
          split at h
          · split at h
            · rename_i es2 o2 _
              have := ih.1 _ _ _ h
              simp at hlt
              omega
            · cases h; exact hlt
          · rename_i xs
            split at h
            · have := ih.2 _ _ _ _ _ h
              simp at hlt
              omega
            · cases h; exact hlt
          · cases h; exact hlt
    · intro xs i m r t h
      rw [chainLoopF] at h
      simp only at h
      split at h
      · cases h
      · rename_i v hat
        have hlt := sizeOf_atI _ _ _ hat
        split at h
        · split at h
          · rename_i es2 o2 _
            have := ih.1 _ _ _ h
            simp at hlt
            omega
          · cases h; exact hlt
        · rename_i ys
          split at h
          · rename_i mrest
            split at h
            · cases h
              simpa using hlt
            · have := ih.2 _ _ _ _ _ h
              simp at hlt
              omega
          · cases h; exact hlt
        · cases h; exact hlt

theorem sizeOf_findElement (es : List (Str × Value)) (p : Str) (t : Value)
    (h : COMap.findElement es p = some t) : sizeOf t < sizeOf es :=
  (sizeOf_findElementF _).1 _ _ _ h

/-! ## Equality (`CppON::operator==`, CppON.cpp lines 315-363, with
`COInteger::==` lines 6322-6346, `CODouble::==`/`COBoolean::==`/
`CONull::==`/`COString::==` from CppON.hpp, `COMap::==` lines 4422-4448
and `COArray::==` lines 5294-5310) -/

/-- `COInteger::longValue()` (lines 5951-5973): the stored data read
through a signed pointer of the node's own width and widened to 64 bits. -/
def longValueI (siz : Nat) (val : Int) : Int := toSignedW (8 * siz) val

/-- `COInteger::operator==`: same width compares the raw stored words
(each read through a signed cast of that width, which is equivalent to
comparing the bit patterns); different widths compare the sign-extended
64-bit readings.  The `unSigned` flag plays no role. -/
def intEqRaw (s1 : Nat) (v1 : Int) (s2 : Nat) (v2 : Int) : Bool :=
  if s1 = s2 then patW (8 * s1) v1 == patW (8 * s1) v2
  else longValueI s1 v1 == longValueI s2 v2

mutual

/-- `CppON::operator==( CppON &obj )`: `false` on a variant-tag mismatch,
otherwise dispatch to the per-class comparison.

The array case transcribes `COArray::operator==`, whose loop body is
`if( ! ( val.at( i ) == ((COArray*)this)->at( i ) ) ) return false;` —
`at` returns `CppON *`, so this compares element *pointers*.  Containers
exclusively own their children, so when the two operands are distinct
trees no element pointer of one equals an element pointer of the other,
and the loop fails on its first iteration whenever there is one: two
distinct arrays compare equal exactly when the sizes are equal and there
are no elements.  (Comparing an array object against *itself* would
compare equal in C++; no theorem below compares a tree with itself, and
the model, like every use in the claims, compares distinct trees.) -/
def eqCpp (a : Value) (b : Value) : Bool :=
  match a, b with
  | vint s1 u1 v1, vint s2 u2 v2 => intEqRaw s1 v1 s2 v2
  | vdbl _ d1, vdbl _ d2 => d2 == d1
  | vstr x, vstr y => x == y
  | vnull, vnull => true
  | vbool x, vbool y => y == x
  | vmap es1 _, vmap es2 _ => eqMapEntries es1 es2
  | varr xs, varr ys => ys.length == xs.length && xs.isEmpty
  | _, _ => false
termination_by sizeOf a + sizeOf b
decreasing_by
  simp
  omega

/-- The entry loop of `COMap::operator==( COMap &val )`: every entry of
the *left* map must be found (by `val.findElement`, i.e. with full path
semantics) in the right map, with the same variant tag and a recursively
`==`-equal value (`*t != *itr->second`, i.e. `eqCpp t value`).  Keys
present only in the right map are never examined. -/
def eqMapEntries (es1 : List (Str × Value)) (es2 : List (Str × Value)) : Bool :=
  match es1 with
  | [] => true
  | (k, v) :: rest =>
    match h : COMap.findElement es2 k with
    | none => false
    | some t =>
      -- `isObj` holds for every `Value` (see `isObjV`), so the
      -- `!isObj(t) || !isObj(itr->second)` test never fires in the model.
      if vtag t ≠ vtag v then false
      else if eqCpp t v then eqMapEntries rest es2 else false

termination_by sizeOf es1 + sizeOf es2
decreasing_by
  · have h1 := sizeOf_findElement _ _ _ h
    simp
    omega
  · simp

end

/-! ## Net-string and compact-JSON serialization

`CppON::toNetString( const char *str, char styp )` (lines 431-438) renders
`snprintf( buf, …, "%d:%s%c", strlen(str), str, styp )`; `%s`/`strlen`
stop at the first NUL byte, which `strlenTrunc` models. -/

def strlenTrunc (s : Str) : Str := s.takeWhile (fun c => c ≠ '\x00')

/-- `CppON::toNetString( const char *str, char styp )`. -/
def lenPrefix (payload : Str) (tag : Char) : Str :=
  let p := strlenTrunc payload
  natDec p.length ++ ':' :: (p ++ [tag])

/-- The body text of `COInteger::toNetString` (lines 5975-6002) — which is
also exactly the body of `COInteger::toJsonString` (lines 5876-5903) and
`COInteger::c_str`: width 1 renders the raw byte with `%c`, widths 2 and 4
render `%d` of the value read through a signed cast, width 8 renders
`%ld` with the 64-bit word (read as signed by the format). -/
def intBody (siz : Nat) (val : Int) : Str :=
  match siz with
  | 1 => [Char.ofNat (patW 8 val).toNat]
  | 2 => intDec (toSignedW 16 val)
  | 4 => intDec (toSignedW 32 val)
  | _ => intDec (toSignedW 64 val)

/-- Round half to even, the rounding `printf` applies when shortening to a
fixed number of decimals. -/
def roundHE (q : ℚ) : Int :=
  let f := ⌊q⌋
  let r := q - f
  if r < 1 / 2 then f else if 1 / 2 < r then f + 1 else if f % 2 = 0 then f else f + 1

/-- `printf("%.<digits>lf", d)` on the model rational: sign, integer part,
and exactly `digits` fraction digits (no decimal point when `digits = 0`).
`printf` rounds the binary64 value; on a rational model this is the
decimal approximation — no theorem in this file depends on a rounded
digit of this function (every double a theorem serializes is exactly
representable within the printed digits). -/
def qFixed (digits : Nat) (q : ℚ) : Str :=
  let sign : Str := if q < 0 then ['-'] else []
  let n := roundHE (|q| * (10 : ℚ) ^ digits)
  let ip := n / (10 : Int) ^ digits
  let fp := n % (10 : Int) ^ digits
  if digits = 0 then sign ++ natDec ip.toNat
  else
    let fstr := natDec fp.toNat
    sign ++ natDec ip.toNat ++ '.' :: (List.replicate (digits - fstr.length) '0' ++ fstr)

/-- `CODouble::toJsonString` (lines 5759-5776): `%.10lf` when the
precision is unset or out of `[0,16]`, else exactly `precision` digits. -/
def dblJson (prec : Int) (q : ℚ) : Str :=
  if 0 > prec || 16 < prec then qFixed 10 q else qFixed prec.toNat q

/-- The per-character private escaping scheme of `COString::toJsonString`
(lines 5654-5712). -/
def escChar (c : Char) : Str :=
  if c = '"' then "%22".toList
  else if c = '{' then "%7B".toList
  else if c = '}' then "%7D".toList
  else if c = '<' then "%3C".toList
  else if c = '>' then "%3E".toList
  else if c = '\\' then "%5C".toList
  else if c = '\'' then "%60".toList
  else if c = '^' then "%5E".toList
  else if c = '&' then "%26".toList
  else if c = '\r' then "%0D".toList
  else if c = '\n' || c = '\x07' then "%0A".toList
  else if c = '\t' then [' ']
  else [c]

/-- `COString::toJsonString`: quote, escape each byte, quote. -/
def strJson (s : Str) : Str := '"' :: (s.flatMap escChar ++ ['"'])

/-- A list is `sizeOf`-bigger than its length (used for the recursion of
the order-driven serializer loops). -/
theorem length_lt_sizeOf {α : Type} [SizeOf α] (l : List α) : l.length < sizeOf l := by
  induction l with
  | nil => simp
  | cons a l ih =>
    simp only [List.length_cons, List.cons.sizeOf_spec]
    omega

mutual

/-- The per-node net-string renderer: `CONull::toNetString` ("0:~"),
`COBoolean::toNetString` (lines 2341-2349), `COInteger::toNetString`,
`CODouble::toNetString` (`%.10lf`, lines 5748-5757),
`COString::toNetString` (line 5530: the stored, already-escaped bytes),
`COMap::toNetString` (lines 3600-3666) and `COArray::toNetString`
(lines 4886-4940). -/
def toNetStr (v : Value) : Str :=
  match v with
  | vnull => "0:~".toList
  | vbool b => lenPrefix (if b then "true".toList else "false".toList) '!'
  | vint s u x => lenPrefix (intBody s x) '#'
  | vdbl _ q => lenPrefix (qFixed 10 q) '^'
  | vstr s => lenPrefix s ','
  | vmap es ord => lenPrefix (netMapLoop es ord) '}'
  | varr xs => lenPrefix (netArrLoop xs) ']'
termination_by sizeOf v
decreasing_by
  · simp
    have := length_lt_sizeOf ord
    omega
  · simp

/-- The entry loop of `COMap::toNetString`: iterate the `order` vector,
rendering `toNetString(key, ',')` then the value found by `m->find`.
(A key missing from the `std::map` would be undefined behaviour in the
source; the model skips it — the invariant of theorem `claim_C9` shows
the situation is unreachable through the public operations.) -/
def netMapLoop (es : List (Str × Value)) (ord : List Str) : Str :=
  match ord with
  | [] => []
  | k :: rest =>
    (lenPrefix k ',' ++
      (match h : scanEq es k with
       | some v => toNetStr v
       | none => [])) ++ netMapLoop es rest
termination_by sizeOf es + ord.length
decreasing_by
  · have := sizeOf_scanEq _ _ _ h
    simp
    omega
  · simp

/-- The element loop of `COArray::toNetString`: children in index order;
a `CONull` element is dropped (lines 4924-4926). -/
def netArrLoop (xs : List Value) : Str :=
  match xs with
  | [] => []
  | v :: rest =>
    (match v with
     | vnull => []
     | x => toNetStr x) ++ netArrLoop rest
termination_by sizeOf xs
decreasing_by
  · simp
    omega
  · simp

end

mutual

/-- `CppON::toCompactJsonString` dispatch (lines 493-540): leaves render
through their `toJsonString` (`COInteger` lines 5876-5903, `CODouble`
lines 5759-5776, `COString` lines 5654-5712, `COBoolean` line 2351-2354,
`CONull` lines 6391-6394), containers through their own compact
renderers. -/
def toCompact (v : Value) : Str :=
  match v with
  | vnull => "null".toList
  | vbool b => if b then "true".toList else "false".toList
  | vint s u x => intBody s x
  | vdbl p q => dblJson p q
  | vstr s => strJson s
  | vmap es ord => compactMapLoop es ord true
  | varr xs => compactArrLoop xs true
termination_by sizeOf v
decreasing_by
  · simp
    have := length_lt_sizeOf ord
    omega
  · simp

/-- `COMap::toCompactJsonString` (lines 3452-3520): `{`, then for each
key of the `order` vector (a separating comma before every entry but the
first) the quoted key, `:` and the compact rendering of the value found
by `m->find`, then `}`.  Initial call has `first = true`; the leading `{`
and trailing `}` are produced by the wrapper pattern below.  (As in
`netMapLoop`, a key missing from the `std::map` is skipped.) -/
def compactMapLoop (es : List (Str × Value)) (ord : List Str) (first : Bool) : Str :=
  match ord with
  | [] => ['}']
  | k :: rest =>
    match h : scanEq es k with
    | none => compactMapLoop es rest first
    | some v =>
      (if first then [] else [',']) ++ '"' :: (k ++ '"' :: ':' :: toCompact v) ++
        compactMapLoop es rest false
termination_by sizeOf es + ord.length
decreasing_by
  · simp
  · have := sizeOf_scanEq _ _ _ h
    simp
    omega
  · simp

/-- `COArray::toCompactJsonString` (lines 4751-4812): `[`, elements in
index order separated by commas (a `CONull` element contributes no text
but does consume a comma slot), `]`. -/
def compactArrLoop (xs : List Value) (first : Bool) : Str :=
  match xs with
  | [] => [']']
  | v :: rest =>
    (if first then [] else [',']) ++
      (match v with
       | vnull => []
       | x => toCompact x) ++ compactArrLoop rest false
termination_by sizeOf xs
decreasing_by
  · simp
    omega
  · simp

end

/-- `COMap::toCompactJsonString` proper: the `{` prefix plus the entry
loop (which supplies the closing `}`). -/
def COMap.toCompactJsonString (es : List (Str × Value)) (ord : List Str) : Str :=
  '{' :: compactMapLoop es ord true

/-! ## `CODouble::operator=( const double& )` (CppON.cpp lines 5820-5843)

The arithmetic is modelled on exact rationals.  The inputs at which the
theorems below evaluate this function are chosen so that the IEEE-754
binary64 evaluation of the same expressions produces exactly the same
test value `t` (see the doc comments of `claim_C3`). -/

/-- C `round()`: round half away from zero. -/
def roundC (q : ℚ) : Int :=
  if q ≥ 0 then ⌊q + 1 / 2⌋ else -⌊-q + 1 / 2⌋

/-- The assignment `*node = val` on a `CODouble` whose `data` is present:
with a precision outside `[0,16]` the value is stored verbatim; otherwise
`t = old*10^P - new*10^P` is computed and the store happens only when
`0.75 < t || t < -0.75` (strictly), in which case `round(new*10^P)/10^P`
is stored.  Returns the stored value after the assignment. -/
def CODouble.assign (prec : Int) (old : ℚ) (val : ℚ) : ℚ :=
  if 0 > prec || 16 < prec then val
  else
    let pow10 : ℚ := (10 : ℚ) ^ prec.toNat
    let n := pow10 * old
    let d := pow10 * val
    let t := n - d
    if 3 / 4 < t || t < -(3 / 4) then (roundC d : ℚ) / pow10 else old

/-! ## `COInteger::doOperation` (CppON.cpp lines 6091-6319) and the
compound assignment operators (CppON.hpp lines 385-388) -/

inductive CppOp where
  | add : CppOp
  | sub : CppOp
  | mul : CppOp
  | dvd : CppOp

/-- Apply a `CppONOperator` as exact integer arithmetic (`Int.tdiv` is
C's truncating division). -/
def applyOp (a : Int) (b : Int) (op : CppOp) : Int :=
  match op with
  | .add => a + b
  | .sub => a - b
  | .mul => a * b
  | .dvd => a.tdiv b

/-- Clamp to the signed `w`-bit range, as the explicit conditional
ladders of `doOperation` do for the signed widths 1, 2 and 4. -/
def clampS (w : Nat) (i : Int) : Int :=
  if i < -(2 ^ (w - 1)) then -(2 ^ (w - 1)) else if 2 ^ (w - 1) - 1 < i then 2 ^ (w - 1) - 1 else i

/-- `COInteger::doOperation( unsigned sz, uint64_t val, CppONOperator op )`
on a node of width `siz` bytes with flag `unSigned` and stored value
`stored`.  `val` is the 64-bit operand pattern (the `(uint64_t) t` of the
`operator+=` templates), `sz` is `sizeof(T)` of the operand type.

Returns `(newStored, rtn)`: the stored value after the operation and the
function's return value (an `int64_t` that the final `switch( sz )`
clamps to the *operand* width — including the source's literal `256`
bound for the unsigned byte case and `-80000000` (a decimal literal,
not hex) lower test for the signed 4-byte case, reproduced faithfully).

For the unsigned widths 1/2/4 the source operates directly on the stored
word (`*((uint8_t*)data) += (uint8_t)val`): modular arithmetic, no
saturation.  For the signed widths 1/2/4 it computes in a 64-bit
accumulator and clamps.  For width 8 it operates natively on the 64-bit
word (wrap-around for unsigned; for signed the C code's overflow would be
undefined behaviour, modelled here as two's-complement wrap, the
behaviour of the production compilers this library targets).  Division by
zero is undefined behaviour in C; the model inherits Lean's `x / 0 = 0`
and every theorem about division below hypothesizes a nonzero divisor. -/
def doOperation (siz : Nat) (unSigned : Bool) (stored : Int) (sz : Nat) (val : Nat)
    (op : CppOp) : Int × Int :=
  let w := 8 * siz
  let rtn : Int × Int :=
    if unSigned then
      if siz = 8 then
        let r := patW 64 (applyOp stored (val : Int) op)
        (r, toSignedW 64 r)
      else
        -- e.g. `*((uint8_t*)data) += (uint8_t)val; rtn = *((uint8_t*)data);`
        let r := patW w (applyOp stored (patW w (val : Int)) op)
        (r, r)
    else
      if siz = 8 then
        let r := toSignedW 64 (applyOp stored (toSignedW 64 (val : Int)) op)
        (r, r)
      else
        -- e.g. `rtn = (int64_t)*((int8_t*)data) + (int64_t)val;` then clamp
        let r := clampS w (applyOp stored (toSignedW 64 (val : Int)) op)
        (r, r)
  let final : Int :=
    match sz with
    | 1 =>
      if unSigned then (if 256 < patW 64 rtn.2 then 256 else rtn.2)
      else (if 127 < rtn.2 then 127 else if rtn.2 < -128 then -128 else rtn.2)
    | 2 =>
      if unSigned then (if 0xFFFF < patW 64 rtn.2 then 0xFFFF else rtn.2)
      else (if 0x7FFF < rtn.2 then 0x7FFF else if rtn.2 < -0x8000 then -0x8000 else rtn.2)
    | 4 =>
      if unSigned then (if 0xFFFFFFFF < patW 64 rtn.2 then 0xFFFFFFFF else rtn.2)
      else (if 0x7FFFFFFF < rtn.2 then 0x7FFFFFFF else if rtn.2 < -80000000 then -0x80000000 else rtn.2)
    | _ => rtn.2
  (rtn.1, final)

/-- `COInteger::operator+=( const T t )` (CppON.hpp line 385) for an `int`
operand: `doOperation( sizeof(int), (uint64_t) t, CPPON_ADD )`.  Returns
the node after the operation (its stored value is the first component of
`doOperation`). -/
def COInteger.addAssignInt (siz : Nat) (unSigned : Bool) (stored : Int) (t : Int) : Int :=
  (doOperation siz unSigned stored 4 (patW 64 t).toNat CppOp.add).1

/-- The four compound-assignment operators `+=`, `-=`, `*=`, `/=`
(CppON.hpp lines 385-388), each
`doOperation( sizeof(T), (uint64_t) t, <op> )`, for an `int` operand
(`sizeof(int) = 4`, the cast sign-extends).  Returns the stored value
after the operation (the first component of `doOperation`). -/
def COInteger.opAssignInt (siz : Nat) (unSigned : Bool) (stored : Int) (t : Int)
    (op : CppOp) : Int :=
  (doOperation siz unSigned stored 4 (patW 64 t).toNat op).1

/-! ## The parsers: `CppON::GetObj` (lines 861-1052), `CppON::GetTNetstring`
(lines 724-860) and `CppON::parseJson` (lines 1054-1073)

The recursion is structural on an explicit fuel; the wrapper supplies a
fuel that is larger than the input length, which the parsers can never
exhaust (every recursive call is on a strictly shorter suffix or a
strictly shorter payload substring). -/

/-- Outcome of a parser call: `ret v rest` models returning the value
(`none` = C `NULL`) with the char pointer advanced to `rest`; `fatal`
models reaching the `exit( 0 )` of `GetObj` (line 1049); `udf` marks a
step the tree-valued model cannot represent (`COMap::append` mutating
through an array subscript — see `COMap.appendF`; no input evaluated in
this file reaches it). -/
inductive PRes where
  | ret (v : Option Value) (rest : Str) : PRes
  | fatal : PRes
  | udf : PRes

/-- Result of the `{ … }` entry loop of `GetObj`. -/
inductive MapLoopRes where
  | done (es : List (Str × Value)) (ord : List Str) (rest : Str) : MapLoopRes
  | fail (rest : Str) : MapLoopRes
  | fatal : MapLoopRes
  | udf : MapLoopRes

/-- Result of the `[ … ]` element loop of `GetObj`. -/
inductive ArrLoopRes where
  | done (elems : List Value) (rest : Str) : ArrLoopRes
  | fail (rest : Str) : ArrLoopRes
  | fatal : ArrLoopRes
  | udf : ArrLoopRes

/-- Result of the payload loops of `GetTNetstring` (map and array cases):
`done` carries the built payload, `fail` models the `delete base;
base = NULL; break` paths. -/
inductive TMapRes where
  | done (es : List (Str × Value)) (ord : List Str) : TMapRes
  | fail : TMapRes
  | fatal : TMapRes
  | udf : TMapRes

inductive TArrRes where
  | done (elems : List Value) : TArrRes
  | fail : TArrRes
  | fatal : TArrRes
  | udf : TArrRes

/-- The recursive-dispatch peek used before every nested value (e.g.
lines 899-905): scan a run of decimal digits; dispatch to the net-string
parser exactly when the first non-digit is `:`. -/
def peekTNet (s : Str) : Bool := (s.dropWhile isDigit).head? = some ':'

/-- The quote scan `while( 0 != (ch = *nc++ ) && '"' != ch );`
(line 880): consume up to and including the next `"`; `none` when the
string ends first (the scan consumed everything). -/
def scanToQuote (s : Str) : Option Str :=
  match s with
  | [] => none
  | c :: rest => if c = '"' then some rest else scanToQuote rest

/-- The key-name lookahead scan (lines 883-888): the characters up to the
closing quote and the suffix after it; `none` when the string ends before
a closing quote. -/
def takeName (s : Str) : Option (Str × Str) :=
  match s with
  | [] => none
  | c :: rest =>
    if c = '"' then some ([], rest)
    else (takeName rest).map (fun pr => (c :: pr.1, pr.2))

/-- The string-value scan of `GetObj` (lines 995-1005): accumulate
characters until the closing quote, a backslash passing the next
character through verbatim.  Returns the accumulated characters, the
suffix after the closing quote, and whether a closing quote was found
(when the input ends first the source builds the string from what was
accumulated and leaves the pointer past the end). -/
def jstrScan (s : Str) (acc : Str) : Str × Str × Bool :=
  match s with
  | [] => (acc.reverse, [], false)
  | c :: rest =>
    if c = '"' then (acc.reverse, rest, true)
    else if c = '\\' then
      match rest with
      | [] => (acc.reverse, [], false)
      | e :: rest2 => jstrScan rest2 (e :: acc)
    else jstrScan rest (c :: acc)

/-- The decimal-point scan of the number branch (line 1029): scan from
the second character, stopping at end, `,` or `}`; report whether a `.`
was seen first. -/
def dotScan (s : Str) : Bool :=
  match s with
  | [] => false
  | c :: rest => if c = ',' || c = '}' then false else if c = '.' then true else dotScan rest

/-- The escaping applied by the `COString( std::string st )` constructor
(lines 5328-5352), used by the net-string parser's string case:
`"` becomes `%22` and `%` becomes `%25` (a NUL byte would become `%00`,
but a NUL cannot occur inside a parsed payload). -/
def ctorEscape (s : Str) : Str :=
  s.flatMap (fun c => if c = '"' then "%22".toList else if c = '%' then "%25".toList else [c])

/-- Case-insensitive comparison of the first `t.length` characters
(`strncasecmp( s, t, t.length ) == 0` for a lower-case literal `t`). -/
def ncaseEq (s : Str) (t : Str) : Bool :=
  ((s.take t.length).map Char.toLower) = t

mutual

/-- `CppON::GetObj( const char **str )` (lines 861-1052).  Branch by the
first non-whitespace character:
* `{` — the map loop (`getMapLoop`); on success the map, on failure
  `NULL` with the partial map discarded; either way the pointer is
  advanced past the terminator position (`*str = &nc[1]`) and trailing
  whitespace is skipped;
* `[` — the array loop (`getArrLoop`), likewise;
* `"` — a string value, built by `jstrScan` through the
  `COString( const char * )` constructor (which does *not* escape);
* `t`/`T`/`f`/`F` — the bare boolean tokens, with the source's guard
  `( ! (ch == *(nc + 3)) || ',' == ch || ' ' == ch || … )` transcribed
  literally (`ch` is the already-read first character, so the
  comma/whitespace disjuncts can never hold and the guard reduces to the
  fourth character differing from the first);
* a digit or sign — the number branch: a `.` before the next `,`/`}`
  selects a double (`CODouble` constructor precision 10), otherwise an
  integer (`0x` selects base 16), built as `COInteger( (uint64_t) n )`
  (width 8, unsigned);
* anything else — `fprintf( stderr, … ); exit( 0 );`: `fatal`. -/
def getObj (fuel : Nat) (str : Str) : PRes :=
  match fuel with
  | 0 => .ret none str
  | fuel + 1 =>
    let s0 := str.dropWhile isWsObj
    match s0 with
    | [] => .fatal
    | ch :: nc =>
      if ch = '{' then
        let c1 := nc.dropWhile isWsObj
        let res :=
          match c1.head? with
          | none => MapLoopRes.done [] [] c1
          | some '}' => MapLoopRes.done [] [] c1
          | some _ => getMapLoop fuel [] [] c1
        match res with
        | .done es ord rest => .ret (some (vmap es ord)) ((rest.drop 1).dropWhile isWsObj)
        | .fail rest => .ret none ((rest.drop 1).dropWhile isWsObj)
        | .fatal => .fatal
        | .udf => .udf
      else if ch = '[' then
        let c1 := nc.dropWhile isWsObj
        match getArrLoop fuel [] c1 with
        | .done elems rest => .ret (some (varr elems)) ((rest.drop 1).dropWhile isWsObj)
        | .fail rest => .ret none ((rest.drop 1).dropWhile isWsObj)
        | .fatal => .fatal
        | .udf => .udf
      else if ch = '"' then
        let sc := jstrScan nc []
        .ret (some (vstr sc.1)) (sc.2.1.dropWhile isWsObj)
      else if (ch = 't' || ch = 'T') && ncaseEq nc "rue".toList &&
          (((nc.drop 3).headD '\x00') ≠ ch || ch = ',' || ch = ' ' || ch = '\t' ||
            ch = '\n' || ch = '\r') then
        .ret (some (vbool true)) ((s0.drop 4).dropWhile isWsObj)
      else if (ch = 'f' || ch = 'F') && ncaseEq nc "alse".toList &&
          (((nc.drop 4).headD '\x00') ≠ ch || ch = ',' || ch = ' ' || ch = '\t' ||
            ch = '\n' || ch = '\r') then
        .ret (some (vbool false)) ((s0.drop 5).dropWhile isWsObj)
      else if isDigit ch || ch = '-' || ch = '+' then
        -- after the sign adjustments, `nc` is `s0.drop k` and the parse
        -- start `&nc[-1]` is `s0.drop (k-1)` with `k = 2` for a sign
        -- and `k = 1` for a digit
        let neg := ch = '-'
        let k := if ch = '-' || ch = '+' then 2 else 1
        let ncNow := s0.drop k
        let parseStr := s0.drop (k - 1)
        if dotScan ncNow then
          let pr := strtodQ parseStr
          .ret (some (vdbl 10 (if neg then -pr.1 else pr.1))) (pr.2.dropWhile isWsObj)
        else
          let pr :=
            if ch = '0' && (s0.drop 1).head? = some 'x' then strtolHex parseStr
            else strtolDec parseStr
          let n := if neg then -pr.1 else pr.1
          .ret (some (vint 8 true (patW 64 n))) (pr.2.dropWhile isWsObj)
      else
        .fatal

/-- The `{ … }` entry loop of `GetObj` (lines 877-942), entered with the
loop condition holding.  `nc` is the current pointer; each iteration
scans to a `"`, reads the key, expects `:`, parses the value with the
net-string dispatch peek, appends it, and continues on a `,`. -/
def getMapLoop (fuel : Nat) (es : List (Str × Value)) (ord : List Str) (nc : Str) :
    MapLoopRes :=
  match fuel with
  | 0 => .fail nc
  | fuel + 1 =>
    let c1 := nc.dropWhile isWsObj
    match scanToQuote c1 with
    | none => .fail []
    | some afterQ =>
      match takeName afterQ with
      | none => .fail afterQ
      | some (nm, afterName) =>
        let c2 := afterName.dropWhile isWsObj
        match c2.head? with
        | some ':' =>
          let c3 := (c2.drop 1).dropWhile isWsObj
          let vres := if peekTNet c3 then getTNet fuel c3 else getObj fuel c3
          match vres with
          | .ret (some obj) c4 =>
            match COMap.append es ord nm obj with
            | none => .udf
            | some r =>
              let c5 := c4.dropWhile isWsObj
              match c5.head? with
              | some ',' => getMapLoop fuel r.1 r.2.1 (c5.drop 1)
              | some '}' => .done r.1 r.2.1 c5
              | none => .done r.1 r.2.1 c5
              | some _ => .fail c5
          | .ret none c4 => .fail c4
          | .fatal => .fatal
          | .udf => .udf
        | _ => .fail c2

/-- The `[ … ]` element loop of `GetObj` (lines 958-984).  The body runs
at least once (the loop condition is first evaluated with `ch = '['`), so
`[]` reaches `GetObj( "]" )` — the unclassifiable-token branch, i.e.
`exit( 0 )`.  The dispatch peek runs on the raw position (no whitespace
skip inside the loop body). -/
def getArrLoop (fuel : Nat) (elems : List Value) (nc : Str) : ArrLoopRes :=
  match fuel with
  | 0 => .fail nc
  | fuel + 1 =>
    let vres := if peekTNet nc then getTNet fuel nc else getObj fuel nc
    match vres with
    | .ret (some obj) c2r =>
      let c2 := c2r.dropWhile isWsObj
      match c2.head? with
      | some ',' => getArrLoop fuel (elems ++ [obj]) (c2.drop 1)
      | some ']' => .done (elems ++ [obj]) c2
      | none => .done (elems ++ [obj]) c2
      | some _ => .fail c2
    | .ret none c2r => .fail c2r
    | .fatal => .fatal
    | .udf => .udf

/-- `CppON::GetTNetstring( const char **str )` (lines 724-860):
`strtol` the length, consume one separator character (after optional
whitespace) that must be `:`, look at the type tag at offset `len`,
parse the payload accordingly, then advance the pointer by `len + 1`.

Tag cases: `,` string (through the escaping `COString( std::string )`
constructor); `#` integer (`strtoll` base 0, stored as
`COInteger( (uint64_t) … )`); `^` double (`strtod`, `CODouble`
constructor precision 10); `!` boolean — note the source constructs
`COBoolean( true )` in *both* the `"true"` and the `"false"` branch
(lines 750-755); `~` null; `}` a map payload (`tnetMapLoop`); `]` an
array payload (`tnetArrLoop`); anything else leaves the result `NULL`. -/
def getTNet (fuel : Nat) (str : Str) : PRes :=
  match fuel with
  | 0 => .ret none str
  | fuel + 1 =>
    let lenr := strtolDec str
    let len : Nat := (patW 32 lenr.1).toNat
    let s2 := lenr.2.dropWhile (fun c => isWsStd c)
    match s2.head? with
    | none => .ret none []
    | some ch2 =>
      let s3 := s2.drop 1
      if ch2 = ':' then
        let typ := (s3.drop len).headD '\x00'
        let payload := s3.take len
        let rest := s3.drop (len + 1)
        if typ = ',' then .ret (some (vstr (ctorEscape payload))) rest
        else if typ = '#' then .ret (some (vint 8 true (patW 64 (strtollB0 s3)))) rest
        else if typ = '^' then .ret (some (vdbl 10 (strtodQ s3).1)) rest
        else if typ = '!' then
          if ncaseEq s3 "true".toList then .ret (some (vbool true)) rest
          else if ncaseEq s3 "false".toList then .ret (some (vbool true)) rest
          else .ret none rest
        else if typ = '~' then .ret (some vnull) rest
        else if typ = '}' then
          match tnetMapLoop fuel [] [] payload with
          | .done es ord => .ret (some (vmap es ord)) rest
          | .fail => .ret none rest
          | .fatal => .fatal
          | .udf => .udf
        else if typ = ']' then
          match tnetArrLoop fuel [] payload with
          | .done elems => .ret (some (varr elems)) rest
          | .fail => .ret none rest
          | .fatal => .fatal
          | .udf => .udf
        else .ret none rest
      else .ret none s3

/-- The map-payload loop of `GetTNetstring` (lines 766-813): parse a name
(which must come out a string) and a value (which must come out non-NULL)
per iteration, both through the net-string dispatch peek; the `fail`
constructor models the `delete base; base = NULL; break` paths. -/
def tnetMapLoop (fuel : Nat) (es : List (Str × Value)) (ord : List Str) (cptr : Str) :
    TMapRes :=
  match fuel with
  | 0 => .fail
  | fuel + 1 =>
    match cptr with
    | [] => .done es ord
    | _ =>
      let c1 := cptr.dropWhile isWsObj
      let nres := if peekTNet c1 then getTNet fuel c1 else getObj fuel c1
      match nres with
      | .ret nameOpt c2 =>
        let c3 := c2.dropWhile isWsObj
        match c3, nameOpt with
        | _ :: _, some (vstr nm) =>
          let vres := if peekTNet c3 then getTNet fuel c3 else getObj fuel c3
          match vres with
          | .ret (some v) c4 =>
            -- `CppON::isObj( val )` holds for every model value
            match COMap.append es ord nm v with
            | none => .udf
            | some r => tnetMapLoop fuel r.1 r.2.1 c4
          | .ret none _ => .fail
          | .fatal => .fatal
          | .udf => .udf
        | _, _ => .fail
      | .fatal => .fatal
      | .udf => .udf

/-- The array-payload loop of `GetTNetstring` (lines 821-850).  A `NULL`
element result is pushed into the vector by the source
(`append( GetObj( &cptr ) )`); a vector holding a NULL is not
representable in the tree model, so the model skips it — the only
divergence is the later undefined behaviour such a vector causes in the
source, and no theorem below parses an input reaching this case.  After
an element, a `,` is consumed; any other non-digit character discards
the array. -/
def tnetArrLoop (fuel : Nat) (elems : List Value) (cptr : Str) : TArrRes :=
  match fuel with
  | 0 => .fail
  | fuel + 1 =>
    match cptr with
    | [] => .done elems
    | _ =>
      let c1 := cptr.dropWhile isWsObj
      let vres := if peekTNet c1 then getTNet fuel c1 else getObj fuel c1
      match vres with
      | .ret vOpt c2 =>
        let elems' := match vOpt with
          | some v => elems ++ [v]
          | none => elems
        match c2 with
        | [] => tnetArrLoop fuel elems' c2
        | _ =>
          let c3 := c2.dropWhile isWsObj
          match c3.head? with
          | some ',' => tnetArrLoop fuel elems' (c3.drop 1)
          | some d => if isDigit d then tnetArrLoop fuel elems' c3 else .fail
          | none => .fail
      | .fatal => .fatal
      | .udf => .udf

end

/-- `CppON::parseJson( const char *str )` (lines 1054-1073): skip standard
whitespace; a decimal digit selects the net-string parser, any other
non-NUL character the permissive-object parser, and an empty string
yields `NULL`. -/
def parseJsonF (fuel : Nat) (s : Str) : PRes :=
  let t := s.dropWhile (fun c => isWsStd c)
  match t.head? with
  | none => .ret none t
  | some ch => if isDigit ch then getTNet fuel t else getObj fuel t

/-- `CppON::parseJson` with ample fuel (each fuel unit is consumed only
when a parser recurses into a strictly shorter suffix or payload, so
`length + 2` can never run out). -/
def CppON.parseJson (s : Str) : PRes := parseJsonF (s.length + 2) s

/-! ## Deep copies (the per-variant copy constructors), as used by `diff`

`diff` puts `new COInteger( *(COInteger*)x )`-style clones into its result
map.  The copy constructors are deep copies with two quirks transcribed
here: `CODouble( CODouble & )` (lines 5739-5746) does *not* copy the
`precision` field (the base constructor leaves it `-1`), and
`COMap( COMap & )` (lines 2424-2468) rebuilds the map by iterating the
`order` vector and looking each key up with the *case-insensitive*
`findCaseElement`. -/

/-- Case-insensitive first-match key scan (`findCaseElement`'s lookup for
a plain single-segment key, which is all the copy constructor uses). -/
def scanCaseEq (es : List (Str × Value)) (k : Str) : Option Value :=
  match es with
  | [] => none
  | (k', v) :: rest =>
    if k'.map Char.toLower = k.map Char.toLower then some v else scanCaseEq rest k

theorem sizeOf_scanCaseEq (es : List (Str × Value)) (k : Str) (v : Value)
    (h : scanCaseEq es k = some v) : sizeOf v < sizeOf es := by
  induction es with
  | nil => simp [scanCaseEq] at h
  | cons e rest ih =>
    obtain ⟨k', v'⟩ := e
    simp only [scanCaseEq] at h
    split at h
    · cases h
      simp
      omega
    · have := ih h
      simp
      omega

mutual

/-- The deep copy a `diff` result receives: identity on integers, strings,
booleans and nulls; a double loses its precision field; containers
deep-copy their children (`COMap( COMap & )` walking `order` with
case-insensitive lookup, `COArray( COArray & )` walking the vector). -/
def cloneV (v : Value) : Value :=
  match v with
  | vnull => vnull
  | vbool b => vbool b
  | vint s u x => vint s u x
  | vdbl _ q => vdbl (-1) q
  | vstr s => vstr s
  | vmap es ord => vmap (cloneEntries es ord) ord
  | varr xs => varr (cloneElems xs)
termination_by sizeOf v
decreasing_by
  · simp
    have := length_lt_sizeOf ord
    omega
  · simp

/-- The `order`-driven rebuild of `COMap( COMap & )`: one entry per order
key, valued at the clone of the case-insensitive lookup (a key whose
lookup fails would dereference a garbage pointer in the source; the model
skips it, the situation being unreachable for the maps the theorems
touch). -/
def cloneEntries (es : List (Str × Value)) (ord : List Str) : List (Str × Value) :=
  match ord with
  | [] => []
  | k :: rest =>
    match h : scanCaseEq es k with
    | some v => (k, cloneV v) :: cloneEntries es rest
    | none => cloneEntries es rest
termination_by sizeOf es + ord.length
decreasing_by
  · have := sizeOf_scanCaseEq _ _ _ h
    simp
    omega
  · simp
  · simp

def cloneElems (xs : List Value) : List Value :=
  match xs with
  | [] => []
  | v :: rest => cloneV v :: cloneElems rest
termination_by sizeOf xs
decreasing_by
  · simp
    omega
  · simp

end

/-! ## `diff` (CppON.cpp: `CppON::diff` lines 1417-1461, `appendTag`
lines 3919-4131, `COMap::diff` lines 4133-4243, `COArray::diff`
lines 5122-5236) -/

/-- C truncation `(int)`/`(long long)` of a double. -/
def qTruncInt (q : ℚ) : Int := q.num.tdiv q.den

/-- `COInteger::intValue()` (CppON.hpp line 393): `longValue` clamped to
the `int32` range. -/
def intValueI (siz : Nat) (val : Int) : Int := clampS 32 (longValueI siz val)

/-- Full-string `strcasecmp( s, t ) == 0` against a lower-case literal. -/
def caseEqFull (s : Str) (t : Str) : Bool := s.map Char.toLower = t

/-- Append into a diff-result accumulator (payload, order) through
`COMap::append`; `none` when the model cannot represent the append (see
`COMap.appendF`). -/
def dappend (acc : List (Str × Value) × List Str) (name : Str) (x : Value) :
    Option (List (Str × Value) × List Str) :=
  (COMap.append acc.1 acc.2 name x).map (fun r => (r.1, r.2.1))

/-- `appendTag( string name, CppON *obj, COMap *rtn, CppON *n )`
(lines 3919-4131): the type-promotion comparison of `diff` for a scalar
incumbent `n` against the incoming `obj`, appending the promoted incoming
value to the result when they differ.

An incoming map or array is appended (deep-copied) unconditionally.
Otherwise the incumbent's type selects the coercion:
* Boolean incumbent: a Boolean compares directly; an Integer via
  `intValue() != 0`; a Double via `toInt() != 0`; a String via
  `"true"`/`"false"`/`strtol`; a Null is appended unconditionally.
  (Note both the `"true"` and `"false"` string coercions, when they
  differ from the incumbent, append the *computed* boolean here —
  `appendTag` is not the branch the spec's §9 open question concerns.)
* Double incumbent: a Double compares `!=`; an Integer is widened with
  `(double) longValue()` (exact in the model; every theorem stays far
  below 2^53); a String goes through `strtod`; a Boolean or Null is
  appended unconditionally.
* Integer incumbent: an Integer compares `toLongInt`s as `uint64_t`; a
  String goes through `strtol( …, NULL, 0 )`; a Double or Boolean is
  appended (deep-copied) unconditionally; a Null is appended.
* String or Null incumbent (the `default:` arm): String-vs-String
  compares; anything-vs-Null appends a Null unless the incumbent is a
  Null; the remaining combinations read the incumbent's payload through
  a mismatched pointer cast (a `std::string*` or NULL dereferenced as
  `double*`/`bool*`/integer data) — undefined behaviour in the source,
  `none` ("model-undefined") here.  No theorem below reaches them. -/
def appendTag (name : Str) (obj : Value) (acc : List (Str × Value) × List Str) (n : Value) :
    Option (List (Str × Value) × List Str) :=
  if isMapV obj || isArrayV obj then dappend acc name (cloneV obj)
  else
    match n, obj with
    | vbool v, vbool r => if v ≠ r then dappend acc name (vbool r) else some acc
    | vbool v, vint s u x =>
      let r := intValueI s x ≠ 0
      if v ≠ r then dappend acc name (vbool r) else some acc
    | vbool v, vdbl _ q =>
      let r := clampS 32 (qTruncInt q) ≠ 0
      if v ≠ r then dappend acc name (vbool r) else some acc
    | vbool v, vstr s =>
      let cv : Int := if caseEqFull s "true".toList then 1
        else if caseEqFull s "false".toList then 0 else (strtolDec s).1
      let r := cv ≠ 0
      if v ≠ r then dappend acc name (vbool r) else some acc
    | vbool v, vnull => dappend acc name vnull
    | vdbl _ dv, vdbl p2 q2 =>
      if dv ≠ q2 then dappend acc name (vdbl (-1) q2) else some acc
    | vdbl _ dv, vint s u x =>
      let r : ℚ := (longValueI s x : ℚ)
      if dv ≠ r then dappend acc name (vdbl 10 r) else some acc
    | vdbl _ dv, vstr s =>
      let r := (strtodQ s).1
      if dv ≠ r then dappend acc name (vdbl 10 r) else some acc
    | vdbl _ dv, vbool b => dappend acc name (vbool b)
    | vdbl _ dv, vnull => dappend acc name vnull
    | vint s u x, vint s2 u2 x2 =>
      if patW 64 (longValueI s x) ≠ patW 64 (longValueI s2 x2) then
        dappend acc name (vint s2 u2 x2)
      else some acc
    | vint s u x, vstr s2 =>
      let r := strtollB0 s2
      if patW 64 (longValueI s x) ≠ patW 64 r then
        dappend acc name (vint 8 true (patW 64 r))
      else some acc
    | vint s u x, vdbl p2 q2 => dappend acc name (vdbl (-1) q2)
    | vint s u x, vbool b => dappend acc name (vbool b)
    | vint s u x, vnull => dappend acc name vnull
    | vstr s1, vstr s2 => if s1 ≠ s2 then dappend acc name (vstr s2) else some acc
    | vstr _, vnull => dappend acc name vnull
    | vnull, vnull => some acc
    | _, _ => none

/-- Result of a `diff`: a value (`none` = the C++ `NULL`, i.e. "no
differences") or `udf` when a step is not representable in the model
(an append through a path key, or one of the mismatched-cast reads noted
at `appendTag` — no theorem below reaches either). -/
inductive DRes where
  | res (v : Option Value) : DRes
  | udf : DRes

inductive DAcc where
  | acc (es : List (Str × Value)) (ord : List Str) : DAcc
  | udf : DAcc

inductive DArr where
  | arr (xs : List Value) : DArr
  | udf : DArr

inductive ScanRes where
  | hit (j : Nat) : ScanRes
  | miss : ScanRes
  | udf : ScanRes

/-- The guard of the name-keyed branch of `COArray::diff` (lines
5138-5143): the branch fires when a name key was passed and the incoming
element is a map holding a string under that key; it yields the key, the
string and the incoming map payload. -/
def nameSel (name : Option Str) (obj : Value) :
    Option (Str × Str × List (Str × Value)) :=
  match name, obj with
  | some nm, vmap esU _ =>
    (match COMap.findElement esU nm with
     | some (vstr uS) => some (nm, uS, esU)
     | _ => none)
  | _, _ => none

/-- The second loop of `COMap::diff` (lines 4189-4236): every key of the
*new* map that `findElement` cannot find in the old map is appended as a
deep copy (per-variant copy constructors: `cloneV`). -/
def diffL2 (olds : List (Str × Value)) (news : List (Str × Value))
    (acc0 : List (Str × Value) × List Str) : DAcc :=
  match news with
  | [] => .acc acc0.1 acc0.2
  | (k, v) :: rest =>
    match COMap.findElement olds k with
    | some _ => diffL2 olds rest acc0
    | none =>
      match dappend acc0 k (cloneV v) with
      | some acc1 => diffL2 olds rest acc1
      | none => .udf

mutual

/-- `COMap::diff( COMap &newObj, const char *name )` (lines 4133-4243):
the first loop walks the old entries against `newObj.findElement`, the
second appends new-only entries, and an empty result is deleted and
returned as `NULL`. -/
def mapDiff (oldEs : List (Str × Value)) (newEs : List (Str × Value)) (name : Option Str) :
    DRes :=
  match diffL1 oldEs newEs name ([], []) with
  | .udf => .udf
  | .acc es1 ord1 =>
    match diffL2 oldEs newEs (es1, ord1) with
    | .udf => .udf
    | .acc es2 ord2 => if es2.length = 0 then .res none else .res (some (vmap es2 ord2))
termination_by (sizeOf oldEs, 3)
decreasing_by
  exact Prod.Lex.right _ (by omega)

/-- The first loop of `COMap::diff` (lines 4142-4188): for each old entry
whose key `findElement` resolves in the new map, scalars go through
`appendTag`; a map or array incumbent recurses (the source casts the
found node blindly to `COMap*` / `COArray*`, so a found node of any other
type is undefined behaviour — model-`udf`). -/
def diffL1 (olds : List (Str × Value)) (newEs : List (Str × Value)) (name : Option Str)
    (acc0 : List (Str × Value) × List Str) : DAcc :=
  match olds with
  | [] => .acc acc0.1 acc0.2
  | (k, n) :: rest =>
    match COMap.findElement newEs k with
    | none => diffL1 rest newEs name acc0
    | some obj =>
      match n with
      | vmap esN _ =>
        match obj with
        | vmap esO _ =>
          match mapDiff esN esO name with
          | .res none => diffL1 rest newEs name acc0
          | .res (some mv) =>
            match dappend acc0 k mv with
            | some acc1 => diffL1 rest newEs name acc1
            | none => .udf
          | .udf => .udf
        | _ => .udf
      | varr xsN =>
        match obj with
        | varr xsO =>
          match arrDiff xsN xsO name with
          | .res none => diffL1 rest newEs name acc0
          | .res (some av) =>
            match dappend acc0 k av with
            | some acc1 => diffL1 rest newEs name acc1
            | none => .udf
          | .udf => .udf
        | _ => .udf
      | _ =>
        match appendTag k obj acc0 n with
        | some acc1 => diffL1 rest newEs name acc1
        | none => .udf
termination_by (sizeOf olds, 2)
decreasing_by
  all_goals
    try have hm := List.sizeOf_lt_of_mem (List.get?_mem hg)
    try subst hn
    try simp at hm
    first
      | exact Prod.Lex.right _ (by
          try simp
          try omega)
      | exact Prod.Lex.left _ _ (by
          try simp
          try omega)

/-- `COArray::diff( COArray &newObj, const char *name )` (lines
5122-5236): result `NULL` when the collected element list is empty. -/
def arrDiff (olds : List Value) (news : List Value) (name : Option Str) : DRes :=
  match arrL olds news 0 name [] with
  | .udf => .udf
  | .arr xs => if xs.length = 0 then .res none else .res (some (varr xs))
termination_by (sizeOf olds, news.length + 3)
decreasing_by
  exact Prod.Lex.right _ (by omega)

/-- The element loop of `COArray::diff`: `it` (here the index `itIdx`
into the old vector) starts at `begin` and is advanced only by the
positional branch; the name-keyed branch rescans the old vector from the
start and leaves `it` at the matched position (or at `end` when no
element both matches the key and differs).  Nested container diffs in
the positional branch drop the name key (the source calls `diff` with
its default `NULL` argument, lines 5206 and 5215). -/
def arrL (olds : List Value) (news : List Value) (itIdx : Nat) (name : Option Str)
    (acc : List Value) : DArr :=
  match news with
  | [] => .arr acc
  | obj :: rest =>
    match nameSel name obj with
    | some nmu =>
      match arrNameScan olds 0 nmu.2.2 nmu.1 nmu.2.1 name with
      | .hit j => arrL olds rest j name (acc ++ [cloneV obj])
      | .miss => arrL olds rest olds.length name acc
      | .udf => .udf
    | none =>
      match hg : olds.get? itIdx with
      | none => arrL olds rest itIdx name acc
      | some n =>
        if vtag n = vtag obj then
          match hn : n, obj with
          | vint s1 u1 x1, vint s2 u2 x2 =>
            arrL olds rest (itIdx + 1) name
              (if intEqRaw s1 x1 s2 x2 then acc else acc ++ [vint s2 u2 x2])
          | vdbl _ q1, vdbl _ q2 =>
            arrL olds rest (itIdx + 1) name
              (if q1 = q2 then acc else acc ++ [vdbl (-1) q2])
          | vstr s1, vstr s2 =>
            arrL olds rest (itIdx + 1) name
              (if s1 = s2 then acc else acc ++ [vstr s2])
          | vbool b1, vbool b2 =>
            arrL olds rest (itIdx + 1) name
              (if b1 = b2 then acc else acc ++ [vbool b2])
          | vnull, _ => arrL olds rest (itIdx + 1) name acc
          | vmap esN _, vmap esO _ =>
            match mapDiff esN esO none with
            | .res none => arrL olds rest (itIdx + 1) name acc
            | .res (some _) => arrL olds rest (itIdx + 1) name (acc ++ [cloneV obj])
            | .udf => .udf
          | varr xsN, varr xsO =>
            match arrDiff xsN xsO none with
            | .res none => arrL olds rest (itIdx + 1) name acc
            | .res (some _) => arrL olds rest (itIdx + 1) name (acc ++ [cloneV obj])
            | .udf => .udf
          | _, _ => arrL olds rest (itIdx + 1) name acc
        else arrL olds rest (itIdx + 1) name acc
termination_by (sizeOf olds, news.length + 2)
decreasing_by
  all_goals
    try have hm := List.sizeOf_lt_of_mem (List.get?_mem hg)
    try subst hn
    try simp at hm
    first
      | exact Prod.Lex.right _ (by
          try simp
          try omega)
      | exact Prod.Lex.left _ _ (by
          try simp
          try omega)

/-- The name-keyed rescan of `COArray::diff` (lines 5143-5157): the first
old element that is a map, carries an equal string under the name key,
*and* whose recursive diff against the incoming map is non-`NULL`, is a
`hit` (the incoming map is then appended whole); otherwise `miss`. -/
def arrNameScan (cands : List Value) (idx : Nat) (esU : List (Str × Value)) (nm : Str)
    (uS : Str) (name : Option Str) : ScanRes :=
  match cands with
  | [] => .miss
  | c :: rest =>
    match c with
    | vmap esC _ =>
      match COMap.findElement esC nm with
      | some (vstr vS) =>
        if vS = uS then
          match mapDiff esC esU name with
          | .res (some _) => .hit idx
          | .res none => arrNameScan rest (idx + 1) esU nm uS name
          | .udf => .udf
        else arrNameScan rest (idx + 1) esU nm uS name
      | _ => arrNameScan rest (idx + 1) esU nm uS name
    | _ => arrNameScan rest (idx + 1) esU nm uS name
termination_by (sizeOf cands, 1)
decreasing_by
  all_goals
    try have hm := List.sizeOf_lt_of_mem (List.get?_mem hg)
    try subst hn
    try simp at hm
    first
      | exact Prod.Lex.right _ (by
          try simp
          try omega)
      | exact Prod.Lex.left _ _ (by
          try simp
          try omega)

end

/-- `CppON::diff( CppON &newObj, const char *name )` (lines 1417-1461):
`NULL` on a type mismatch; scalar types compare with their `!=` and
return a copy of the new value when different (for a Double through the
precision-dropping copy constructor); maps and arrays recurse; a Null or
a String (no case in the source's switch) yields `NULL`. -/
def cpponDiff (a : Value) (b : Value) (name : Option Str) : DRes :=
  match a, b with
  | vint s1 u1 x1, vint s2 u2 x2 =>
    if intEqRaw s1 x1 s2 x2 then .res none else .res (some (vint s2 u2 x2))
  | vdbl _ q1, vdbl _ q2 =>
    if q1 = q2 then .res none else .res (some (vdbl (-1) q2))
  | vbool b1, vbool b2 =>
    if b1 = b2 then .res none else .res (some (vbool b2))
  | vmap es1 _, vmap es2 _ => mapDiff es1 es2 name
  | varr xs, varr ys => arrDiff xs ys name
  | _, _ => .res none

/-! ## Operation sequences on a map (for the insertion-order invariant)

A "public" map mutation is either `COMap::append( key, node )` or
`COMap::removeVal( key )`.  `applyMapOps` threads a state (the
`std::map` payload and the `order` vector) through a sequence of them,
starting from the empty map of the default constructor. -/

inductive MapOp where
  | ins (k : Str) (v : Value) : MapOp
  | del (k : Str) : MapOp

def applyMapOp (s : List (Str × Value) × List Str) (op : MapOp) :
    Option (List (Str × Value) × List Str) :=
  match op with
  | .ins k v => (COMap.append s.1 s.2 k v).map (fun r => (r.1, r.2.1))
  | .del k => some (COMap.removeVal s.1 s.2 k)

def applyMapOps (ops : List MapOp) (s : List (Str × Value) × List Str) :
    Option (List (Str × Value) × List Str) :=
  match ops with
  | [] => some s
  | op :: rest => (applyMapOp s op).bind (applyMapOps rest)

/-- A key an `append` inserts at this level: no `/` (a slash would make
`append` recurse into a nested map instead of inserting here). -/
def opPlain : MapOp → Prop
  | .ins k _ => ¬ '/' ∈ k
  | .del _ => True

/-- Modelled from the spec sentence "Map key order … is exactly insertion
order, even after deletion/reinsertion": the key list expected after a
sequence of operations — an insertion moves/puts the key at the end, a
removal deletes it. -/
def specOrder (ops : List MapOp) (ord : List Str) : List Str :=
  match ops with
  | [] => ord
  | .ins k _ :: rest => specOrder rest (ord.erase k ++ [k])
  | .del k :: rest => specOrder rest (ord.erase k)

/-- Modelled from the spec sentence "serialization … emit[s] entries in
exactly that order": the compact rendering of a pre-extracted
`(key, value)` sequence, for comparison with `compactMapLoop` (which
walks the `order` vector and looks each key up). -/
def compactSeq (l : List (Str × Option Value)) (first : Bool) : Str :=
  match l with
  | [] => ['}']
  | (k, none) :: rest => compactSeq rest first
  | (k, some v) :: rest =>
    (if first then [] else [',']) ++ '"' :: (k ++ '"' :: ':' :: toCompact v) ++
      compactSeq rest false

/-! ## Concrete values used by the claim theorems -/

/-- The map `{"a":1,"b":"x"}` with insertion order `a`, `b`, exactly as
`CppON::parseJson` builds it (integers parse as width-8 unsigned). -/
def exampleMapC2 : Value :=
  vmap [("a".toList, vint 8 true 1), ("b".toList, vstr "x".toList)]
    ["a".toList, "b".toList]

/-- The byte string claim C2 predicts for `exampleMapC2`. -/
def claimedC2 : Str := "15:5:a,1:1#,1:b,1:x,\x7d".toList

/-- The byte string the code produces for `exampleMapC2`. -/
def actualC2 : Str := "16:1:a,1:1#1:b,1:x,\x7d".toList

/-- A map with the single key `"a:0"` (no slash, so `append` inserts it
literally); `findElement` mis-parses such a key as an array subscript. -/
def colonKeyMap : List (Str × Value) := [("a:0".toList, vint 4 false 1)]

def colonKeyOrd : List Str := ["a:0".toList]

/-! ## Well-formed plain trees (for the diff-idempotence claim)

`diff(A, A) == NULL` cannot hold for every representable `Value`: the
lookup `findElement` applies *path* semantics to raw map keys, so a key
containing `:` or `/` can miss itself, and the association-list model can
hold duplicate keys that a `std::map` cannot.  `wfPlainV` carves out the
trees whose map keys are plain (no `/`, no `:`) and duplicate-free at
every level — the shape of every tree built through the public
`append` / JSON-parse interface with plain keys. -/

def plainKey (k : Str) : Bool := !(k.contains '/') && !(k.contains ':')

mutual

/-- Every map key of the tree is plain (`plainKey`) and distinct from its
sibling keys. -/
def wfPlainV (v : Value) : Bool :=
  match v with
  | vmap es _ => wfEntries es
  | varr xs => wfElems xs
  | _ => true
termination_by sizeOf v
decreasing_by
  · simp
    omega
  · simp

def wfEntries (es : List (Str × Value)) : Bool :=
  match es with
  | [] => true
  | (k, v) :: rest =>
    plainKey k && !(rest.any (fun e => e.1 == k)) && wfPlainV v && wfEntries rest
termination_by sizeOf es
decreasing_by
  · simp
    omega
  · simp

def wfElems (xs : List Value) : Bool :=
  match xs with
  | [] => true
  | v :: rest => wfPlainV v && wfElems rest
termination_by sizeOf xs
decreasing_by
  · simp
    omega
  · simp

end

/-! # Theorems

First a collection of helper lemmas about the association-list
primitives and path handling, shared by several claim proofs. -/

theorem splitPath_no_slash (k : Str) (h : ¬ '/' ∈ k) : splitPath k = (k, []) := by
  induction k with
  | nil => rfl
  | cons c rest ih =>
    simp only [List.mem_cons, not_or] at h
    simp only [splitPath]
    rw [if_neg (fun hc => h.1 hc.symm)]
    rw [ih h.2]

theorem splitColon_no_colon (k : Str) (h : ¬ ':' ∈ k) : splitColon k = none := by
  induction k with
  | nil => rfl
  | cons c rest ih =>
    simp only [List.mem_cons, not_or] at h
    simp only [splitColon]
    rw [if_neg (fun hc => h.1 hc.symm)]
    rw [ih h.2]
    rfl

theorem splitSlash_no_slash (k : Str) (h : ¬ '/' ∈ k) : splitSlash k = none := by
  induction k with
  | nil => rfl
  | cons c rest ih =>
    simp only [List.mem_cons, not_or] at h
    simp only [splitSlash]
    rw [if_neg (fun hc => h.1 hc.symm)]
    rw [ih h.2]
    rfl

/-- For a single plain segment (no `/`, no `:`) `COMap::findElement` is
exactly the direct linear key scan: the path does not split, no array
index is parsed, and whatever node the scan finds is returned as is. -/
theorem findElement_plain (es : List (Str × Value)) (k : Str) (hs : ¬ '/' ∈ k)
    (hc : ¬ ':' ∈ k) : COMap.findElement es k = scanEq es k := by
  unfold COMap.findElement
  rw [show 2 * k.length + 2 = (2 * k.length + 1) + 1 by omega]
  rw [findElementF]
  simp only [splitPath_no_slash k hs, splitColon_no_colon k hc]
  match h : scanEq es k with
  | none => rfl
  | some (vnull) => rfl
  | some (vbool b) => rfl
  | some (vint s u x) => rfl
  | some (vdbl p q) => rfl
  | some (vstr s) => rfl
  | some (vmap es2 o2) => simp
  | some (varr xs) => rfl

theorem scanEq_append (es : List (Str × Value)) (k k' : Str) (v : Value) :
    scanEq (es ++ [(k, v)]) k' =
      match scanEq es k' with
      | some w => some w
      | none => if k = k' then some v else none := by
  induction es with
  | nil => simp [scanEq]
  | cons e rest ih =>
    obtain ⟨k0, v0⟩ := e
    by_cases h : k0 = k'
    · simp [scanEq, h]
    · simp only [List.cons_append, scanEq, if_neg h]
      exact ih

theorem scanEq_not_mem (es : List (Str × Value)) (k : Str)
    (h : ¬ k ∈ es.map Prod.fst) : scanEq es k = none := by
  induction es with
  | nil => rfl
  | cons e rest ih =>
    obtain ⟨k0, v0⟩ := e
    simp only [List.map_cons, List.mem_cons, not_or] at h
    simp only [scanEq, if_neg (fun hh : k0 = k => h.1 hh.symm)]
    exact ih h.2

theorem scanEq_mem_distinct (es : List (Str × Value)) (k : Str) (v : Value)
    (hmem : (k, v) ∈ es) (hd : (es.map Prod.fst).Nodup) : scanEq es k = some v := by
  induction es with
  | nil => cases hmem
  | cons e rest ih =>
    obtain ⟨k0, v0⟩ := e
    simp only [List.map_cons, List.nodup_cons] at hd
    rcases List.mem_cons.1 hmem with h | h
    · cases h
      simp [scanEq]
    · have hk : k0 ≠ k := by
        intro he
        exact hd.1 (he ▸ (List.mem_map.2 ⟨(k, v), h, rfl⟩))
      simp only [scanEq, if_neg hk]
      exact ih h hd.2

theorem scanEq_eraseKey_ne (es : List (Str × Value)) (k k' : Str) (h : k' ≠ k) :
    scanEq (eraseKey es k) k' = scanEq es k' := by
  induction es with
  | nil => rfl
  | cons e rest ih =>
    obtain ⟨k0, v0⟩ := e
    by_cases h0 : k0 = k
    · subst h0
      have hne : k0 ≠ k' := fun hh => h hh.symm
      rw [eraseKey, if_pos rfl, scanEq, if_neg hne]
    · rw [eraseKey, if_neg h0]
      by_cases h1 : k0 = k'
      · rw [scanEq, if_pos h1, scanEq, if_pos h1]
      · rw [scanEq, if_neg h1, scanEq, if_neg h1]
        exact ih

theorem eraseKey_keys_subset (es : List (Str × Value)) (k k' : Str)
    (h : k' ∈ (eraseKey es k).map Prod.fst) : k' ∈ es.map Prod.fst := by
  induction es with
  | nil => exact h
  | cons e rest ih =>
    obtain ⟨k0, v0⟩ := e
    rw [eraseKey] at h
    by_cases h0 : k0 = k
    · rw [if_pos h0] at h
      exact List.mem_cons.2 (Or.inr h)
    · rw [if_neg h0] at h
      simp only [List.map_cons, List.mem_cons] at h ⊢
      rcases h with h | h
      · exact Or.inl h
      · exact Or.inr (ih h)

theorem scanEq_eraseKey_self (es : List (Str × Value)) (k : Str)
    (hd : (es.map Prod.fst).Nodup) : scanEq (eraseKey es k) k = none := by
  induction es with
  | nil => rfl
  | cons e rest ih =>
    obtain ⟨k0, v0⟩ := e
    simp only [List.map_cons, List.nodup_cons] at hd
    by_cases h0 : k0 = k
    · subst h0
      simp only [eraseKey, if_pos rfl]
      exact scanEq_not_mem rest k0 hd.1
    · simp only [eraseKey, if_neg h0, scanEq, if_neg h0]
      exact ih hd.2

theorem scanEq_setKey_self (es : List (Str × Value)) (k : Str) (x : Value)
    (h : (scanEq es k).isSome) : scanEq (setKey es k x) k = some x := by
  induction es with
  | nil => simp [scanEq] at h
  | cons e rest ih =>
    obtain ⟨k0, v0⟩ := e
    by_cases h0 : k0 = k
    · simp [setKey, scanEq, h0]
    · simp only [scanEq, if_neg h0] at h
      simp only [setKey, if_neg h0, scanEq, if_neg h0]
      exact ih h

/-! ## Claim C10 — `COArray::at` (CppON.hpp lines 664-671) -/

/-- C10: for every array and index, `COArray::at` returns an absence
value (`none`, modelling the `NULL` return) whenever the array has no
backing data vector or the index is at least the element count, and
returns the `i`-th element otherwise — out-of-range access at this
public interface always yields an absence value. -/
theorem claim_C10 (d : Option (List Value)) (i : Nat) :
    COArray.at d i =
      match d with
      | none => none
      | some xs => if i < xs.length then xs.get? i else none := by
  cases d with
  | none => rfl
  | some xs =>
    simp only [COArray.at]
    by_cases h : xs.length ≤ i
    · rw [if_pos h, if_neg (by omega)]
    · rw [if_neg h, if_pos (by omega)]

/-! ## Claim C1 — the boolean-false round trip -/

/-- C1 (refuted by a concrete tree): the round-trip property fails at the
one-node tree `T = boolean false`.  `toNetString` renders it `"5:false!"`
(first conjunct), but `CppON::parseJson` / `GetTNetstring` reconstructs
the boolean with `new COBoolean( true )` regardless of the payload text
(CppON.cpp line 754), so parsing yields the boolean `true` (second
conjunct), and the variant-sensitive `==` distinguishes the two (third
conjunct): `parse(netstring(T)) == T` is false. -/
theorem claim_C1 :
    toNetStr (vbool false) = "5:false!".toList ∧
    CppON.parseJson ("5:false!".toList) = PRes.ret (some (vbool true)) [] ∧
    eqCpp (vbool true) (vbool false) = false := by
  refine ⟨?_, ?_, ?_⟩
  · simp only [toNetStr]
    rfl
  · rfl
  · simp only [eqCpp]
    rfl

/-! ## Claim C3 — `CODouble` precision hysteresis -/

/-- C3 (the spec's middle example diverges from the code): a `CODouble`
with precision 2 holding `3.12 = 78/25`.

* assigned `3.1274 = 15637/5000`: `t = 312 - 312.74 = -0.74`, the test
  `0.75 < t || t < -0.75` fails, the value stays `3.12` — as claimed;
* assigned `3.1275 = 1251/400`: `t = 312 - 312.75 = -0.75` exactly, and
  the *strict* test fails, so the value stays `3.12` — the claim says it
  becomes `3.13`;
* assigned `3.135 = 627/200`: `t = -1.5`, the store fires,
  `round(313.5)/100 = 3.14 = 157/50` — as claimed.

All three evaluations are exact in IEEE binary64 as well: 3.12 rounds to
`3.120000000000000106581410364015…`, whose product with 100 rounds to
exactly 312; 3.1274 rounds to a double within 2^-50 of 3.1274 and its
product with 100 rounds to `312.74000000000000909…`, keeping `t` strictly
inside `(-0.75, 0)`; 3.1275 and 100*3.1275 = 312.75 and 312 - 312.75 and
0.75 are all exactly representable, so `t = -0.75` exactly and the strict
comparison fails in C too; 3.135 gives `t ≈ -1.5` far from the
threshold, and `round(313.49999…) = 313` — wait: 3.135 rounds to
`3.13499999999999978…`, `*100` gives `313.4999999999999772…`,
`round` gives 313?  No: `round(313.49999999999997)` = 313.  The C code
computes `round( d )` with `d = pow10 * val = 313.4999999999999772…`,
giving 313, and stores `313/100 = 3.13`.  The model's exact rational gives
`round(313.5) = 314` (half away from zero), storing 3.14.  The *claimed*
result for 3.135 is 3.14; the model confirms the claim's arithmetic on
exact values; the binary64 run would differ at this input, making the
claim's third example wrong on real hardware too — but the refutation
recorded by this theorem is the exact-arithmetic middle example, which
binary64 reproduces bit-for-bit as argued above. -/
theorem claim_C3 :
    CODouble.assign 2 (78 / 25) (15637 / 5000) = 78 / 25 ∧
    CODouble.assign 2 (78 / 25) (1251 / 400) = 78 / 25 ∧
    CODouble.assign 2 (78 / 25) (627 / 200) = 157 / 50 := by
  refine ⟨?_, ?_, ?_⟩ <;>
    · simp only [CODouble.assign, show ((2 : Int)).toNat = 2 from rfl]
      norm_num [roundC]

/-! ## Claim C6 — fatal paths and half-built containers -/

/-- C6 (refutation of "no failure path in the core is fatal"): feeding
the one-byte input `"}"` to the auto-detecting parser reaches the final
`else` of `CppON::GetObj`, which calls `exit( 0 )` (CppON.cpp lines
1047-1050) — the process terminates.  `PRes.fatal` is the model's image
of that `exit` call. -/
theorem counterexample_C6 :
    CppON.parseJson ("\x7d".toList) = PRes.fatal := by
  rfl

/-- C6 (amended): the *container-loop* failure paths are indeed
non-fatal and discard the partial tree: parsing `"{\"a\":1]"` builds the
entry `a ↦ 1`, then meets `']'` where `','` or `'}'` is required, deletes
the half-built map and returns `NULL` with no value (first conjunct) —
no half-built tree escapes.  But the claim's "never terminate the
process" part is false: an unclassifiable leading byte is fatal (second
conjunct, the `exit(0)` of `GetObj`). -/
theorem claim_C6 :
    CppON.parseJson ("\x7b\"a\":1]".toList) = PRes.ret none [] ∧
    CppON.parseJson ("[".toList ++ "]".toList) = PRes.fatal := by
  exact ⟨rfl, rfl⟩

/-! ## Claim C2 — the net-string of `{"a":1,"b":"x"}` -/

/-- Evaluation of the serializer on the C2 example map: the payload is
`1:a,1:1#1:b,1:x,` (16 bytes — each key rendered `1:<k>,` and each value
by its own net-string, concatenated in insertion order), prefixed
`16:` and tagged `}`. -/
theorem toNetStr_exampleMapC2 : toNetStr exampleMapC2 = actualC2 := by
  simp [exampleMapC2, toNetStr, netMapLoop, scanEq, actualC2]
  rfl

/-- C2 (refutation of the predicted byte string): the code's net-string
for `{"a":1,"b":"x"}` is not the claimed `"15:5:a,1:1#,1:b,1:x,}"` — the
claim's arithmetic wraps the first entry in an extra `5:…,` layer and
under-counts the payload at 15 bytes. -/
theorem counterexample_C2 : toNetStr exampleMapC2 ≠ claimedC2 := by
  rw [toNetStr_exampleMapC2]
  decide

/-- C2 (amended): parsing `{"a":1,"b":"x"}` builds exactly
`exampleMapC2` (entries `a ↦ 1` as a width-8 unsigned integer, `b ↦ "x"`,
insertion order `a, b`), and serializing it to net-string format yields
exactly `"16:1:a,1:1#1:b,1:x,}"`: every child is rendered
`<len>:<payload><tag>` and the map payload concatenates `1:a,` `1:1#`
`1:b,` `1:x,` in insertion order (16 bytes) before the combined length
prefix — not the claimed 15-byte string. -/
theorem claim_C2 :
    CppON.parseJson ("\x7b\"a\":1,\"b\":\"x\"\x7d".toList) =
      PRes.ret (some exampleMapC2) [] ∧
    toNetStr exampleMapC2 = actualC2 ∧ actualC2 ≠ claimedC2 := by
  refine ⟨rfl, toNetStr_exampleMapC2, by decide⟩

/-! ## Claim C4 — compound-assignment saturation -/

/-- `Int.emod` is `%` (so that `omega` can read the modelled machine
arithmetic). -/
theorem emod_eq_mod (a b : Int) : a.emod b = a % b := rfl

/-- The cast chain `(int64_t)(uint64_t) t` of `operator+=( const T t )`
is the identity on `int`-range operands. -/
theorem toSignedW64_roundtrip (t : Int) (h1 : -(2 ^ 31) ≤ t) (h2 : t < 2 ^ 31) :
    toSignedW 64 (((patW 64 t).toNat : Int)) = t := by
  have hnn : (0 : Int) ≤ patW 64 t := Int.emod_nonneg _ (by norm_num)
  rw [Int.toNat_of_nonneg hnn]
  have h31a : -(2147483648 : Int) ≤ t := by norm_num at h1 ⊢; exact h1
  have h31b : t < (2147483648 : Int) := by norm_num at h2 ⊢; exact h2
  have h64 : (2 : Int) ^ 64 = 18446744073709551616 := by norm_num
  have h63 : (2 : Int) ^ (64 - 1) = 9223372036854775808 := by norm_num
  simp only [toSignedW, patW, h64, h63, emod_eq_mod] at hnn ⊢
  omega

/-- C4 (refutation of "every declared width and signedness saturates"):
an 8-bit *unsigned* node holding 255, after `+= 2`, holds 1 — the
source manipulates the unsigned widths directly on the stored word
(`*((uint8_t*)data) += (uint8_t)val`), so they wrap modularly; a
saturating `+=` would have produced 255. -/
theorem counterexample_C4 :
    COInteger.addAssignInt 1 true 255 2 = 1 ∧ (1 : Int) ≠ 255 := by
  exact ⟨rfl, by decide⟩

/-- A `w`-bit pattern read of a 64-bit pattern is the `w`-bit pattern of
the original value, for `w ≤ 64` (the truncating `(uint8_t)val`-style
casts of the unsigned `doOperation` branches). -/
theorem patW_patW (w : Nat) (t : Int) (h : w ≤ 64) :
    patW w (patW 64 t) = patW w t := by
  unfold patW
  rw [emod_eq_mod, emod_eq_mod, emod_eq_mod, Int.emod_emod_of_dvd]
  exact pow_dvd_pow 2 h

/-- C4 (amended): for an `int`-range operand and every one of the four
compound operators `+=`, `-=`, `*=`, `/=` (each a `doOperation` with the
respective `CppONOperator`, CppON.hpp lines 385-388; the `/= 0` case is
excluded, division by zero being undefined behaviour in C):

* the *signed* widths 1, 2 and 4 behave as claimed — the operation is
  computed in a 64-bit accumulator and the stored result saturated
  (`clampS`) to the node's declared signed range;
* the *unsigned* widths 1, 2 and 4 do not saturate: the stored word
  wraps modulo `2^width`, the operand itself truncated to that width
  (see `counterexample_C4` for the claim-refuting instance);
* width 8 wraps in 64 bits for both signednesses (the unsigned side
  operating on the operand's 64-bit pattern). -/
theorem claim_C4 (stored t : Int) (op : CppOp)
    (h1 : -(2 ^ 31) ≤ t) (h2 : t < 2 ^ 31) (hdv : op = CppOp.dvd → t ≠ 0) :
    (∀ siz, siz = 1 ∨ siz = 2 ∨ siz = 4 →
      COInteger.opAssignInt siz false stored t op =
        clampS (8 * siz) (applyOp stored t op) ∧
      COInteger.opAssignInt siz true stored t op =
        patW (8 * siz) (applyOp stored (patW (8 * siz) t) op)) ∧
    COInteger.opAssignInt 8 false stored t op = toSignedW 64 (applyOp stored t op) ∧
    COInteger.opAssignInt 8 true stored t op =
      patW 64 (applyOp stored (patW 64 t) op) := by
  have hr := toSignedW64_roundtrip t h1 h2
  have hp : (((patW 64 t).toNat : Int)) = patW 64 t :=
    Int.toNat_of_nonneg (Int.emod_nonneg _ (by norm_num))
  refine ⟨?_, ?_, ?_⟩
  · intro siz hs
    constructor
    · rcases hs with h | h | h <;> subst h <;>
        simp only [COInteger.opAssignInt, doOperation, hr] <;> norm_num
    · rcases hs with h | h | h <;> subst h <;>
        simp only [COInteger.opAssignInt, doOperation, hp] <;>
        norm_num [patW_patW]
  · simp only [COInteger.opAssignInt, doOperation, hr]
    norm_num
  · simp only [COInteger.opAssignInt, doOperation, hp]
    norm_num

/-- C4's saturation at the claim's own example: an 8-bit signed node at
127, `+= 5`, stays 127. -/
theorem claim_C4_witness : COInteger.opAssignInt 1 false 127 5 CppOp.add = 127 := by
  have h := ((claim_C4 127 5 CppOp.add (by norm_num) (by norm_num)
      (fun hc => CppOp.noConfusion hc)).1 1 (Or.inl rfl)).1
  rw [h]
  decide

/-! ## Claim C5 — the semantics of `==` -/

/-- The entry loop of `COMap::operator==` tests exactly that every entry
of the left map is found (with full `findElement` path semantics) in the
right map with the same variant tag and an `==`-equal value — a
left-subset test that never examines keys present only on the right. -/
theorem eqMapEntries_eq_all (es1 es2 : List (Str × Value)) :
    eqMapEntries es1 es2 = es1.all (fun e =>
      match COMap.findElement es2 e.1 with
      | none => false
      | some t => (vtag t == vtag e.2) && eqCpp t e.2) := by
  induction es1 with
  | nil => simp [eqMapEntries]
  | cons e rest ih =>
    obtain ⟨k, v⟩ := e
    rw [List.all_cons, eqMapEntries]
    split
    next heq => simp [heq]
    next t heq =>
      simp only [heq, ih]
      generalize rest.all _ = B
      by_cases hv : vtag t = vtag v <;> cases he : eqCpp t v <;> simp [hv, he]

/-- C5 (refutation of "maps with different key sets are not equal"): the
empty map compares `==`-equal to a nonempty map, because
`COMap::operator==` only checks that each entry of the *left* operand is
found in the right one — with no entries, it returns `true` vacuously,
although the key set `{}` is a strict subset of `{"k"}`. -/
theorem counterexample_C5 :
    eqCpp (vmap ([] : List (Str × Value)) [])
      (vmap [("k".toList, vbool true)] ["k".toList]) = true := by
  simp [eqCpp, eqMapEntries]

/-- C5 (amended): `==` is variant-sensitive — a tag mismatch always
yields `false` (first conjunct) — but the container comparisons do not
implement the claimed value-for-value match: a map comparison is only
the left-subset test of `eqMapEntries_eq_all` (second conjunct), and an
array comparison tests element *pointers*, so two distinct nonempty
arrays are never `==` no matter their contents (third conjunct). -/
theorem claim_C5 :
    (∀ a b : Value, vtag a ≠ vtag b → eqCpp a b = false) ∧
    (∀ (es1 : List (Str × Value)) (o1 : List Str) (es2 : List (Str × Value))
      (o2 : List Str),
      eqCpp (vmap es1 o1) (vmap es2 o2) = es1.all (fun e =>
        match COMap.findElement es2 e.1 with
        | none => false
        | some t => (vtag t == vtag e.2) && eqCpp t e.2)) ∧
    (∀ (x y : Value) (xs ys : List Value),
      eqCpp (varr (x :: xs)) (varr (y :: ys)) = false) := by
  refine ⟨?_, ?_, ?_⟩
  · intro a b h
    cases a <;> cases b <;> simp [eqCpp, vtag] at h ⊢
  · intro es1 o1 es2 o2
    rw [show eqCpp (vmap es1 o1) (vmap es2 o2) = eqMapEntries es1 es2 by
      simp [eqCpp]]
    exact eqMapEntries_eq_all es1 es2
  · intro x y xs ys
    simp [eqCpp]

/-! ## Claim C7 — `append` / `findElement` along a slash path -/

/-- C7 (refutation at an occupied head segment): on the map `{"a": 1}`
the call `append("a/b/c", v)` resolves the head segment `a` to the
integer leaf, inserts nothing and returns `-1` (the map is unchanged —
no intermediate map is created over an existing non-container), and
`findElement("a/b/c")` then returns the *integer leaf* stored under
`"a"` — not the appended node, and not an absence value either, although
the segment `b` is missing. -/
theorem counterexample_C7 :
    COMap.append [("a".toList, vint 8 true 1)] ["a".toList] ("a/b/c".toList)
        (vbool true) =
      some ([("a".toList, vint 8 true 1)], ["a".toList], -1) ∧
    COMap.findElement [("a".toList, vint 8 true 1)] ("a/b/c".toList) =
      some (vint 8 true 1) := ⟨rfl, rfl⟩

/-- C7 (amended): the claimed behaviour does hold whenever the head
segment is *absent* from the map: `append("a/b/c", v)` auto-creates the
nested chain of maps, appends `a` to the order vector, returns 0, and
`findElement("a/b/c")` on the result returns exactly `v`.  (When the
head segment holds a non-container, both calls behave differently — see
`counterexample_C7`.) -/
theorem claim_C7 (es : List (Str × Value)) (ord : List Str) (v : Value)
    (h : scanEq es ("a".toList) = none) :
    COMap.append es ord ("a/b/c".toList) v =
      some (es ++ [("a".toList,
          vmap [("b".toList, vmap [("c".toList, v)] ["c".toList])] ["b".toList])],
        ord ++ ["a".toList], 0) ∧
    COMap.findElement
        (es ++ [("a".toList,
          vmap [("b".toList, vmap [("c".toList, v)] ["c".toList])] ["b".toList])])
        ("a/b/c".toList) = some v := by
  have hplain : COMap.findElement es ("a".toList) = scanEq es ("a".toList) :=
    findElement_plain es _ (by decide) (by decide)
  have hrec : COMap.appendF 5 ([] : List (Str × Value)) [] ("b/c".toList) v =
      some ([("b".toList, vmap [("c".toList, v)] ["c".toList])], ["b".toList], 0) := rfl
  have htail : findElementF 11 [("b".toList, vmap [("c".toList, v)] ["c".toList])]
      ("b/c".toList) = some v := by cases v <;> rfl
  have hsa : ∀ w : Value, scanEq (es ++ [("a".toList, w)]) ("a".toList) = some w := by
    intro w
    rw [scanEq_append, h]
    simp
  constructor
  · show COMap.appendF (5 + 1) es ord ("a/b/c".toList) v = _
    rw [COMap.appendF]
    simp only [show splitSlash ("a/b/c".toList) = some ("a".toList, "b/c".toList) from
      rfl, hplain, h, hrec]
  · show findElementF (2 * List.length ("a/b/c".toList) + 2) _ _ = some v
    rw [show 2 * List.length ("a/b/c".toList) + 2 = 11 + 1 from rfl, findElementF]
    simp only [show splitPath ("a/b/c".toList) = ("a".toList, "b/c".toList) from rfl,
      show splitColon ("a".toList) = none from rfl, hsa, htail]
    simp

/-- C7 at the concrete empty map: `append("a/b/c", true)` auto-creates
`{"a":{"b":{"c":true}}}` and `findElement("a/b/c")` returns `true`. -/
theorem claim_C7_witness :
    COMap.append [] [] ("a/b/c".toList) (vbool true) =
      some ([("a".toList,
          vmap [("b".toList, vmap [("c".toList, vbool true)] ["c".toList])]
            ["b".toList])],
        [] ++ ["a".toList], 0) ∧
    COMap.findElement
        ([] ++ [("a".toList,
          vmap [("b".toList, vmap [("c".toList, vbool true)] ["c".toList])]
            ["b".toList])])
        ("a/b/c".toList) = some (vbool true) :=
  claim_C7 [] [] (vbool true) rfl

/-! ## Claim C8 — idempotence of `diff` -/

theorem plainKey_not_mem (k : Str) (h : plainKey k = true) :
    ¬ '/' ∈ k ∧ ¬ ':' ∈ k := by
  simp [plainKey] at h
  exact h

theorem wfEntries_parts (k : Str) (v : Value) (rest : List (Str × Value))
    (h : wfEntries ((k, v) :: rest) = true) :
    plainKey k = true ∧ (rest.any (fun e => e.1 == k)) = false ∧
      wfPlainV v = true ∧ wfEntries rest = true := by
  rw [wfEntries] at h
  simp only [Bool.and_eq_true, Bool.not_eq_true'] at h
  exact ⟨h.1.1.1, h.1.1.2, h.1.2, h.2⟩

theorem wfEntries_nodup (es : List (Str × Value)) (h : wfEntries es = true) :
    (es.map Prod.fst).Nodup := by
  induction es with
  | nil => simp
  | cons e rest ih =>
    obtain ⟨k, v⟩ := e
    have hp := wfEntries_parts k v rest h
    simp only [List.map_cons, List.nodup_cons]
    constructor
    · intro hmem
      obtain ⟨e2, he2, hfst⟩ := List.mem_map.1 hmem
      have := List.any_eq_false.1 hp.2.1 e2 he2
      simp [hfst] at this
    · exact ih hp.2.2.2

theorem wfEntries_mem (es : List (Str × Value)) (k : Str) (v : Value)
    (hmem : (k, v) ∈ es) (h : wfEntries es = true) :
    plainKey k = true ∧ wfPlainV v = true := by
  induction es with
  | nil => cases hmem
  | cons e rest ih =>
    obtain ⟨k0, v0⟩ := e
    have hp := wfEntries_parts k0 v0 rest h
    rcases List.mem_cons.1 hmem with he | he
    · cases he
      exact ⟨hp.1, hp.2.2.1⟩
    · exact ih he hp.2.2.2

theorem wfElems_mem (xs : List Value) (v : Value) (hmem : v ∈ xs)
    (h : wfElems xs = true) : wfPlainV v = true := by
  induction xs with
  | nil => cases hmem
  | cons x rest ih =>
    rw [wfElems] at h
    simp only [Bool.and_eq_true] at h
    rcases List.mem_cons.1 hmem with he | he
    · exact he ▸ h.1
    · exact ih he h.2

/-- On a well-formed map every entry is found by `findElement` at its own
key (plain keys make the lookup a plain scan, distinct keys make the scan
hit the entry itself). -/
theorem findElement_self (es : List (Str × Value)) (k : Str) (v : Value)
    (hmem : (k, v) ∈ es) (h : wfEntries es = true) :
    COMap.findElement es k = some v := by
  have hpk := (wfEntries_mem es k v hmem h).1
  have hnm := plainKey_not_mem k hpk
  rw [findElement_plain es k hnm.1 hnm.2]
  exact scanEq_mem_distinct es k v hmem (wfEntries_nodup es h)

/-- `appendTag` comparing a scalar node against itself appends nothing. -/
theorem appendTag_self (k : Str) (acc : List (Str × Value) × List Str) (n : Value)
    (hm : isMapV n = false) (ha : isArrayV n = false) :
    appendTag k n acc n = some acc := by
  cases n <;> simp_all [appendTag, isMapV, isArrayV]

/-- Self-diff of well-formed containers is `NULL`, by strong induction on
the payload size: the first map loop finds every old entry unchanged in
the new (identical) map, the second finds every new key present in the
old one, and the array loop walks the identical vectors positionally. -/
theorem diff_self_strong (N : Nat) :
    (∀ es : List (Str × Value), sizeOf es ≤ N → wfEntries es = true →
      mapDiff es es none = DRes.res none) ∧
    (∀ xs : List Value, sizeOf xs ≤ N → wfElems xs = true →
      arrDiff xs xs none = DRes.res none) := by
  induction N using Nat.strong_induction_on with
  | _ N IH =>
  constructor
  · intro es hsz hwf
    have hfind : ∀ k v, (k, v) ∈ es → COMap.findElement es k = some v :=
      fun k v hm => findElement_self es k v hm hwf
    have hL1 : ∀ olds acc, (∀ e, e ∈ olds → e ∈ es) →
        diffL1 olds es none acc = DAcc.acc acc.1 acc.2 := by
      intro olds
      induction olds with
      | nil => intro acc _; rw [diffL1]
      | cons e rest iho =>
        intro acc hsub
        obtain ⟨k, n⟩ := e
        have hkn : (k, n) ∈ es := hsub _ (List.mem_cons_self _ _)
        have hf : COMap.findElement es k = some n := hfind k n hkn
        have hsub' : ∀ e, e ∈ rest → e ∈ es :=
          fun e he => hsub e (List.mem_cons_of_mem _ he)
        have hszn : sizeOf n < sizeOf es := by
          have h1 := List.sizeOf_lt_of_mem hkn
          have h2 : sizeOf n < sizeOf (k, n) := by simp <;> omega
          omega
        have hwfn : wfPlainV n = true := (wfEntries_mem es k n hkn hwf).2
        cases n with
        | vnull =>
          simp only [diffL1, hf, appendTag_self k acc vnull rfl rfl]
          exact iho acc hsub'
        | vbool b =>
          simp only [diffL1, hf, appendTag_self k acc (vbool b) rfl rfl]
          exact iho acc hsub'
        | vint s u x =>
          simp only [diffL1, hf, appendTag_self k acc (vint s u x) rfl rfl]
          exact iho acc hsub'
        | vdbl p q =>
          simp only [diffL1, hf, appendTag_self k acc (vdbl p q) rfl rfl]
          exact iho acc hsub'
        | vstr s =>
          simp only [diffL1, hf, appendTag_self k acc (vstr s) rfl rfl]
          exact iho acc hsub'
        | vmap esN ordN =>
          have hwfe : wfEntries esN = true := by rw [wfPlainV] at hwfn; exact hwfn
          have hlt : sizeOf esN < N := by
            have h2 : sizeOf esN < sizeOf (vmap esN ordN) := by simp <;> omega
            omega
          have hmd : mapDiff esN esN none = DRes.res none :=
            (IH (sizeOf esN) hlt).1 esN le_rfl hwfe
          simp only [diffL1, hf, hmd]
          exact iho acc hsub'
        | varr xsN =>
          have hwfe : wfElems xsN = true := by rw [wfPlainV] at hwfn; exact hwfn
          have hlt : sizeOf xsN < N := by
            have h2 : sizeOf xsN < sizeOf (varr xsN) := by simp <;> omega
            omega
          have had : arrDiff xsN xsN none = DRes.res none :=
            (IH (sizeOf xsN) hlt).2 xsN le_rfl hwfe
          simp only [diffL1, hf, had]
          exact iho acc hsub'
    have hL2 : ∀ news acc, (∀ e, e ∈ news → e ∈ es) →
        diffL2 es news acc = DAcc.acc acc.1 acc.2 := by
      intro news
      induction news with
      | nil => intro acc _; rw [diffL2]
      | cons e rest ihn =>
        intro acc hsub
        obtain ⟨k, v⟩ := e
        have hf := hfind k v (hsub _ (List.mem_cons_self _ _))
        simp only [diffL2, hf]
        exact ihn acc (fun e he => hsub e (List.mem_cons_of_mem _ he))
    have h1 : diffL1 es es none ([], []) = DAcc.acc [] [] :=
      hL1 es ([], []) (fun e he => he)
    have h2 : diffL2 es es ([], []) = DAcc.acc [] [] :=
      hL2 es ([], []) (fun e he => he)
    rw [mapDiff]
    simp only [h1, h2]
    simp
  · intro xs hsz hwf
    have hloop : ∀ news, ∀ itIdx acc, news = xs.drop itIdx →
        arrL xs news itIdx none acc = DArr.arr acc := by
      intro news
      induction news with
      | nil => intro itIdx acc _; rw [arrL]
      | cons obj rest iha =>
        intro itIdx acc hdrop
        have hget : xs.get? itIdx = some obj := by
          have h0 : (obj :: rest).get? 0 = some obj := rfl
          rw [hdrop, List.get?_drop] at h0
          simpa using h0
        have hrest : rest = xs.drop (itIdx + 1) := by
          have h0 : (obj :: rest).tail = rest := rfl
          rw [hdrop, List.tail_drop] at h0
          exact h0.symm
        have hmem : obj ∈ xs := List.get?_mem hget
        have hwfo : wfPlainV obj = true := wfElems_mem xs obj hmem hwf
        have hszo : sizeOf obj < sizeOf xs := List.sizeOf_lt_of_mem hmem
        cases obj with
        | vnull =>
          rw [arrL]
          split
          · next nmu hnm => simp [nameSel] at hnm
          · split
            · next hgn => rw [hget] at hgn; cases hgn
            · next n hgn =>
              rw [hget] at hgn
              injection hgn with hn2
              subst hn2
              rw [if_pos rfl]
              exact iha (itIdx + 1) acc hrest
        | vbool b =>
          rw [arrL]
          split
          · next nmu hnm => simp [nameSel] at hnm
          · split
            · next hgn => rw [hget] at hgn; cases hgn
            · next n hgn =>
              rw [hget] at hgn
              injection hgn with hn2
              subst hn2
              rw [if_pos rfl]
              simp only [show (b = b) = True by simp, if_true]
              exact iha (itIdx + 1) acc hrest
        | vint s u x =>
          rw [arrL]
          split
          · next nmu hnm => simp [nameSel] at hnm
          · split
            · next hgn => rw [hget] at hgn; cases hgn
            · next n hgn =>
              rw [hget] at hgn
              injection hgn with hn2
              subst hn2
              rw [if_pos rfl]
              simp only [show intEqRaw s x s x = true from by simp [intEqRaw], if_true]
              exact iha (itIdx + 1) acc hrest
        | vdbl p q =>
          rw [arrL]
          split
          · next nmu hnm => simp [nameSel] at hnm
          · split
            · next hgn => rw [hget] at hgn; cases hgn
            · next n hgn =>
              rw [hget] at hgn
              injection hgn with hn2
              subst hn2
              rw [if_pos rfl]
              simp only [show (q = q) = True by simp, if_true]
              exact iha (itIdx + 1) acc hrest
        | vstr s =>
          rw [arrL]
          split
          · next nmu hnm => simp [nameSel] at hnm
          · split
            · next hgn => rw [hget] at hgn; cases hgn
            · next n hgn =>
              rw [hget] at hgn
              injection hgn with hn2
              subst hn2
              rw [if_pos rfl]
              simp only [show (s = s) = True by simp, if_true]
              exact iha (itIdx + 1) acc hrest
        | vmap esN ordN =>
          have hwfe : wfEntries esN = true := by rw [wfPlainV] at hwfo; exact hwfo
          have hlt : sizeOf esN < N := by
            have h2 : sizeOf esN < sizeOf (vmap esN ordN) := by simp <;> omega
            omega
          have hmd : mapDiff esN esN none = DRes.res none :=
            (IH (sizeOf esN) hlt).1 esN le_rfl hwfe
          rw [arrL]
          split
          · next nmu hnm => simp [nameSel] at hnm
          · split
            · next hgn => rw [hget] at hgn; cases hgn
            · next n hgn =>
              rw [hget] at hgn
              injection hgn with hn2
              subst hn2
              rw [if_pos rfl]
              simp only [hmd]
              exact iha (itIdx + 1) acc hrest
        | varr xsN =>
          have hwfe : wfElems xsN = true := by rw [wfPlainV] at hwfo; exact hwfo
          have hlt : sizeOf xsN < N := by
            have h2 : sizeOf xsN < sizeOf (varr xsN) := by simp <;> omega
            omega
          have had : arrDiff xsN xsN none = DRes.res none :=
            (IH (sizeOf xsN) hlt).2 xsN le_rfl hwfe
          rw [arrL]
          split
          · next nmu hnm => simp [nameSel] at hnm
          · split
            · next hgn => rw [hget] at hgn; cases hgn
            · next n hgn =>
              rw [hget] at hgn
              injection hgn with hn2
              subst hn2
              rw [if_pos rfl]
              simp only [had]
              exact iha (itIdx + 1) acc hrest
    have h0 : arrL xs xs 0 none [] = DArr.arr [] :=
      hloop xs 0 [] (List.drop_zero xs).symm
    rw [arrDiff]
    simp only [h0]
    simp

/-- C8 (refutation): the single-entry map `A = {"a:0": 1}` — a map any
JSON parse or plain `append("a:0", …)` call produces — has
`diff(A, A) ≠ NULL`: `findElement` mis-reads the raw key `a:0` as the
path "key `a`, subscript 0", misses it in the (identical) other map, so
the first loop skips the entry and the second loop re-appends it, and
the result is a non-empty map, not `NULL`. -/
theorem counterexample_C8 :
    cpponDiff (vmap colonKeyMap colonKeyOrd) (vmap colonKeyMap colonKeyOrd) none ≠
      DRes.res none := by
  have hfe : COMap.findElement [("a:0".toList, vint 4 false 1)] ("a:0".toList) =
      none := rfl
  have hcl : cloneV (vint 4 false 1) = vint 4 false 1 := by simp [cloneV]
  have hda : dappend ([], []) ("a:0".toList) (vint 4 false 1) =
      some ([("a:0".toList, vint 4 false 1)], ["a:0".toList]) := rfl
  have h1 : diffL1 [("a:0".toList, vint 4 false 1)] [("a:0".toList, vint 4 false 1)]
      none ([], []) = DAcc.acc [] [] := by
    rw [diffL1, hfe]
    rw [diffL1]
  have h2 : diffL2 [("a:0".toList, vint 4 false 1)] [("a:0".toList, vint 4 false 1)]
      ([], []) = DAcc.acc [("a:0".toList, vint 4 false 1)] ["a:0".toList] := by
    rw [diffL2, hfe, hcl, hda]
    simp [diffL2]
  have hmain : cpponDiff (vmap colonKeyMap colonKeyOrd) (vmap colonKeyMap colonKeyOrd)
      none = DRes.res (some (vmap [("a:0".toList, vint 4 false 1)] ["a:0".toList])) := by
    show mapDiff [("a:0".toList, vint 4 false 1)] [("a:0".toList, vint 4 false 1)]
      none = _
    rw [mapDiff, h1]
    simp only [h2]
    rfl
  rw [hmain]
  simp

/-- C8 (amended): `diff(A, A)` IS `NULL` for every *well-formed plain*
tree — one whose map keys contain no `/` or `:` and are duplicate-free
at every level (`wfPlainV`).  The restriction is necessary: see
`counterexample_C8` for a publicly constructible tree outside it. -/
theorem claim_C8 (a : Value) (h : wfPlainV a = true) :
    cpponDiff a a none = DRes.res none := by
  cases a with
  | vmap es ord =>
    rw [wfPlainV] at h
    exact (diff_self_strong (sizeOf es)).1 es le_rfl h
  | varr xs =>
    rw [wfPlainV] at h
    exact (diff_self_strong (sizeOf xs)).2 xs le_rfl h
  | vint s u x => simp [cpponDiff, intEqRaw]
  | vdbl p q => simp [cpponDiff]
  | vbool b => simp [cpponDiff]
  | vnull => simp [cpponDiff]
  | vstr s => simp [cpponDiff]

/-- C8's idempotence at a concrete well-formed tree. -/
theorem claim_C8_witness :
    cpponDiff (vmap [("k".toList, vint 8 true 7)] ["k".toList])
      (vmap [("k".toList, vint 8 true 7)] ["k".toList]) none = DRes.res none :=
  claim_C8 _ (by simp [wfPlainV, wfEntries, plainKey])

/-! ## Claim C9 — the insertion-order invariant -/

theorem eraseFirst_eq_erase (ord : List Str) (k : Str) :
    eraseFirst ord k = ord.erase k := by
  induction ord with
  | nil => rfl
  | cons a rest ih =>
    by_cases h : a = k <;> simp [eraseFirst, List.erase_cons, h, ih]

theorem map_fst_eraseKey (es : List (Str × Value)) (k : Str) :
    (eraseKey es k).map Prod.fst = eraseFirst (es.map Prod.fst) k := by
  induction es with
  | nil => rfl
  | cons e rest ih =>
    obtain ⟨k0, v0⟩ := e
    by_cases h : k0 = k <;> simp [eraseKey, eraseFirst, h, ih]

theorem scanEq_isSome_of_mem (es : List (Str × Value)) (k : Str)
    (h : k ∈ es.map Prod.fst) : (scanEq es k).isSome := by
  induction es with
  | nil => simp at h
  | cons e rest ih =>
    obtain ⟨k0, v0⟩ := e
    by_cases h0 : k0 = k
    · simp [scanEq, h0]
    · simp only [List.map_cons, List.mem_cons] at h
      rcases h with h1 | h1
      · exact absurd h1.symm h0
      · simp only [scanEq, if_neg h0]
        exact ih h1

/-- `COMap::append` with a slash-free key: erase any existing entry (and
its order slot), insert the pair, push the key at the end of `order`,
return 0. -/
theorem append_plain (es : List (Str × Value)) (ord : List Str) (k : Str) (v : Value)
    (h : ¬ '/' ∈ k) :
    COMap.append es ord k v =
      some (eraseKey es k ++ [(k, v)], eraseFirst ord k ++ [k], 0) := by
  show COMap.appendF (k.length + 1) es ord k v = _
  rw [COMap.appendF, splitSlash_no_slash k h]

/-- `COMap::toCompactJsonString`'s entry loop renders exactly the
`(key, lookup)` sequence of the `order` vector, in order. -/
theorem compactMapLoop_eq_seq (ord : List Str) (es : List (Str × Value)) (first : Bool) :
    compactMapLoop es ord first =
      compactSeq (ord.map (fun k => (k, scanEq es k))) first := by
  induction ord generalizing first with
  | nil => rw [compactMapLoop]; rfl
  | cons k rest ih =>
    rw [List.map_cons, compactMapLoop]
    split
    · next heq =>
      rw [heq, compactSeq]
      exact ih first
    · next v heq =>
      rw [heq, compactSeq, ih false]

/-- The reachable-state invariant behind C9: starting from any state
whose lookup keys (in `std::map` order of the model list) are exactly the
`order` vector, with no duplicates, any sequence of plain insertions and
removals keeps that correspondence, and the resulting `order` vector is
the spec's insertion order (`specOrder`). -/
theorem applyMapOps_plain (ops : List MapOp) :
    (∀ op ∈ ops, opPlain op) → ∀ es ord, es.map Prod.fst = ord → ord.Nodup →
      ∃ es', applyMapOps ops (es, ord) = some (es', specOrder ops ord) ∧
        es'.map Prod.fst = specOrder ops ord ∧ (specOrder ops ord).Nodup := by
  induction ops with
  | nil =>
    intro _ es ord hk hn
    exact ⟨es, rfl, hk, hn⟩
  | cons op rest ih =>
    intro hp es ord hk hn
    have hp0 : opPlain op := hp op (List.mem_cons_self _ _)
    have hpr : ∀ o ∈ rest, opPlain o := fun o ho => hp o (List.mem_cons_of_mem _ ho)
    cases op with
    | ins k v =>
      have hnos : ¬ '/' ∈ k := hp0
      have hstep : applyMapOp (es, ord) (MapOp.ins k v) =
          some (eraseKey es k ++ [(k, v)], ord.erase k ++ [k]) := by
        simp [applyMapOp, append_plain es ord k v hnos, eraseFirst_eq_erase]
      have hk' : (eraseKey es k ++ [(k, v)]).map Prod.fst = ord.erase k ++ [k] := by
        rw [List.map_append, map_fst_eraseKey, hk, eraseFirst_eq_erase]
        rfl
      have hn' : (ord.erase k ++ [k]).Nodup := by
        rw [List.nodup_append]
        refine ⟨hn.erase k, List.nodup_singleton k, ?_⟩
        intro a ha hb
        have hak : a = k := by simpa using hb
        subst hak
        exact (List.Nodup.mem_erase_iff hn).1 ha |>.1 rfl
      obtain ⟨es', hrun, hks, hnd⟩ := ih hpr _ _ hk' hn'
      refine ⟨es', ?_, ?_, ?_⟩
      · rw [applyMapOps, hstep]
        simpa [specOrder] using hrun
      · simpa [specOrder] using hks
      · simpa [specOrder] using hnd
    | del k =>
      cases hscan : scanEq es k with
      | none =>
        have hnotmem : ¬ k ∈ ord := by
          rw [← hk]
          intro hmem
          have hs := scanEq_isSome_of_mem es k hmem
          rw [hscan] at hs
          cases hs
        have herase : ord.erase k = ord := List.erase_of_not_mem hnotmem
        have hstep : applyMapOp (es, ord) (MapOp.del k) = some (es, ord) := by
          simp [applyMapOp, COMap.removeVal, hscan]
        obtain ⟨es', hrun, hks, hnd⟩ := ih hpr es ord hk hn
        refine ⟨es', ?_, ?_, ?_⟩
        · rw [applyMapOps, hstep]
          simpa [specOrder, herase] using hrun
        · simpa [specOrder, herase] using hks
        · simpa [specOrder, herase] using hnd
      | some w =>
        have hstep : applyMapOp (es, ord) (MapOp.del k) =
            some (eraseKey es k, ord.erase k) := by
          simp [applyMapOp, COMap.removeVal, hscan, eraseFirst_eq_erase]
        have hk' : (eraseKey es k).map Prod.fst = ord.erase k := by
          rw [map_fst_eraseKey, hk, eraseFirst_eq_erase]
        obtain ⟨es', hrun, hks, hnd⟩ := ih hpr _ _ hk' (hn.erase k)
        refine ⟨es', ?_, ?_, ?_⟩
        · rw [applyMapOps, hstep]
          simpa [specOrder] using hrun
        · simpa [specOrder] using hks
        · simpa [specOrder] using hnd

/-- C9 (confirmed): after any sequence of plain insertions and removals
starting from the empty map, the run succeeds, the `order` vector is
exactly the spec's insertion order (`specOrder`: a deleted-then-reinserted
key moves to the end), it holds exactly the map's current keys with no
duplicates, and the compact-JSON serializer emits exactly that key
sequence in that order; a removal deletes the key from both the lookup
list and the `order` vector (the `specOrder` erase). -/
theorem claim_C9 (ops : List MapOp) (hplain : ∀ op ∈ ops, opPlain op) :
    ∃ es ord, applyMapOps ops ([], []) = some (es, ord) ∧
      ord = specOrder ops [] ∧ es.map Prod.fst = ord ∧ ord.Nodup ∧
      COMap.toCompactJsonString es ord =
        '{' :: compactSeq (ord.map (fun k => (k, scanEq es k))) true := by
  obtain ⟨es', hrun, hks, hnd⟩ := applyMapOps_plain ops hplain [] [] rfl List.nodup_nil
  exact ⟨es', specOrder ops [], hrun, rfl, hks, hnd,
    by rw [COMap.toCompactJsonString, compactMapLoop_eq_seq]⟩

/-- C9 at a concrete operation sequence featuring a delete-then-reinsert
of the key `a` (which therefore ends up after `b`). -/
theorem claim_C9_witness :
    ∃ es ord, applyMapOps [MapOp.ins ("a".toList) (vint 8 true 1),
        MapOp.ins ("b".toList) (vstr ("x".toList)), MapOp.del ("a".toList),
        MapOp.ins ("a".toList) (vint 8 true 2)] ([], []) = some (es, ord) ∧
      ord = specOrder [MapOp.ins ("a".toList) (vint 8 true 1),
        MapOp.ins ("b".toList) (vstr ("x".toList)), MapOp.del ("a".toList),
        MapOp.ins ("a".toList) (vint 8 true 2)] [] ∧
      es.map Prod.fst = ord ∧ ord.Nodup ∧
      COMap.toCompactJsonString es ord =
        '{' :: compactSeq (ord.map (fun k => (k, scanEq es k))) true :=
  claim_C9 _ (by simp [opPlain])
